import Mathlib

/-!
Verification development for the g1 graph-store query pipeline.

The repository contains two generations of the query pipeline:

* a "nameless" pipeline (`g1-common/src/nameless.rs`, `g1-common/src/validate.rs`,
  `g1-common/src/naive_solve.rs`) in which predicate names are unsigned indices,
  builtins `atom/1, name/3, edge/3, tag/3, blob/4` have indices `0..4` and user
  predicates get indices `5..`;
* a "validated" pipeline (`g1-common/src/validated/*.rs`) in which builtins
  `=/2, atom/1, name/3, edge/3, tag/3, blob/4` have the negative indices
  `-1..-6` and user predicates get indices `0..`.

This file shallowly embeds the data model and the operations of both pipelines,
plus the surface-language printer and the lexer position tracking from
`g1-common/src/lang/`.  Machine integers (`u32`, `i32`, `usize`) are embedded as
`Nat`/`Int`; none of the verified paths can overflow on the inputs considered.
Rust `HashSet`/`HashMap` values are embedded as lists with membership-tested
insertion; `Arc<str>` handles produced by string interning are embedded as
indices into the interning pool, so that "two arguments share a handle" becomes
equality of indices.  Rust panics (`assert_eq!`, `unimplemented!`) are embedded
as distinguished `Except` error values, since a shallow embedding has no notion
of aborting the process.
-/

namespace G1

/-! ## Nameless IR (`g1-common/src/nameless.rs`) -/

/-- `NamelessValue` from `nameless.rs`.  The `Arc<str>` payload of `Str` is
embedded as a plain `String`; pointer sharing is irrelevant to the claims about
this pipeline. -/
inductive NamelessValue where
  | metaVar : String → NamelessValue
  | str : String → NamelessValue
  | var : Nat → NamelessValue
deriving DecidableEq

/-- `NamelessPredicate` from `nameless.rs`: names `0`-`4` are the builtins
`atom/1`, `name/3`, `edge/3`, `tag/3`, `blob/4`; user predicates start at 5. -/
structure NamelessPredicate where
  name : Nat
  args : List NamelessValue
deriving DecidableEq

/-- `NamelessClause` from `nameless.rs`: head argument vector, positive body,
negative body, and the number of variables used in the clause. -/
structure NamelessClause where
  vars : Nat
  head : List NamelessValue
  bodyPos : List NamelessPredicate
  bodyNeg : List NamelessPredicate
deriving DecidableEq

/-- `NamelessQuery` from `nameless.rs`: clauses grouped by predicate in
stratified order (group `i` defines predicate `i + 5`), the goal, and the goal's
variable count. -/
structure NamelessQuery where
  clauses : List (List NamelessClause)
  goalVars : Nat
  goal : NamelessPredicate
deriving DecidableEq

/-! ## Nameless validation (`g1-common/src/validate.rs`)

Errors in this pipeline are produced through `Error::invalid_query(msg)`; they
are embedded as the message `String` (the `SimpleError` instance of the trait).
-/

/-- `NamelessValue::validate`: a variable must be in range, and a variable seen
in a non-negated position is recorded in `positivities`
(`positivities[n] |= !negated`). -/
def NamelessValue.validate (v : NamelessValue) (negated : Bool)
    (positivities : List Bool) : Except String (List Bool) :=
  match v with
  | .var n =>
      if n < positivities.length then
        .ok (if !negated then positivities.set n true else positivities)
      else
        .error "invalid variable number"
  | _ => .ok positivities

/-- Folds `NamelessValue.validate` over an argument list, as the `for` loop in
`NamelessPredicate::validate` does. -/
def namelessValidateArgs (negated : Bool) (positivities : List Bool) :
    List NamelessValue → Except String (List Bool)
  | [] => .ok positivities
  | a :: rest => do
      let positivities ← a.validate negated positivities
      namelessValidateArgs negated positivities rest

/-- `NamelessPredicate::validate`: the callee's index may not exceed `maxPred`,
then every argument is validated. -/
def NamelessPredicate.validate (p : NamelessPredicate) (maxPred : Nat)
    (negated : Bool) (positivities : List Bool) : Except String (List Bool) :=
  if p.name > maxPred then
    .error "incorrect stratification"
  else
    namelessValidateArgs negated positivities p.args

/-- Folds `NamelessPredicate.validate` over a body list. -/
def namelessValidateBody (maxPred : Nat) (negated : Bool)
    (positivities : List Bool) :
    List NamelessPredicate → Except String (List Bool)
  | [] => .ok positivities
  | p :: rest => do
      let positivities ← p.validate maxPred negated positivities
      namelessValidateBody maxPred negated positivities rest

/-- Returns the index of the first `false` entry, mirroring the final loop of
`NamelessClause::validate`. -/
def firstNonPositive (l : List Bool) : Option Nat :=
  l.findIdx? (fun b => b = false)

/-- `NamelessClause::validate(pred_num)`: head arguments are validated as if
negated (a head occurrence is not a positive occurrence), positive body
predicates may call up to `pred_num`, negative ones only strictly below it, and
finally every variable must have been seen positively. -/
def NamelessClause.validate (c : NamelessClause) (predNum : Nat) :
    Except String Unit := do
  let positivities := List.replicate c.vars false
  let positivities ← namelessValidateArgs true positivities c.head
  let positivities ← namelessValidateBody predNum false positivities c.bodyPos
  let positivities ← namelessValidateBody (predNum - 1) true positivities c.bodyNeg
  match firstNonPositive positivities with
  | some i => .error ("variable " ++ toString i ++ " not positive")
  | none => .ok ()

/-- Validates the groups of a query starting at predicate index `start`
(`NamelessQuery::validate` enumerates groups and passes `i + 5`). -/
def namelessValidateGroups (start : Nat) :
    List (List NamelessClause) → Except String Unit
  | [] => .ok ()
  | group :: rest => do
      let _ ← group.foldlM (fun _ c => c.validate start) ()
      namelessValidateGroups (start + 1) rest

/-- `NamelessQuery::validate`. -/
def NamelessQuery.validate (q : NamelessQuery) : Except String Unit :=
  namelessValidateGroups 5 q.clauses

/-! ## Naive solver (`g1-common/src/naive_solve.rs`)

`naive_solve.rs` accesses clause fields `args` (the head arguments) and `body`
(a single list of `(negated, predicate)` pairs); the checked-in `nameless.rs`
instead names these `head` and splits the body into `body_pos`/`body_neg`.  The
two files are different iterations of the same design and do not compile
together.  We mirror the solver file's view of a clause as `SolveClause` and
keep `NamelessClause` above for the validator file, relating them where a claim
needs both (`body = [] ↔ body_pos = [] ∧ body_neg = []`).

Rust panics are embedded as `SolveAbort` values: `assertFailed` for the
`assert_eq!(clause.vars, 0)` in the fact-seeding loop, `unimplementedTail` for
the `unimplemented!()` the function ends in.  The unbounded `loop` in
`Model::propagate` is run on explicit fuel; exhaustion is reported as
`fuelExhausted` and never occurs in the concrete runs below. -/

/-- A clause as the solver file reads it. -/
structure SolveClause where
  vars : Nat
  args : List NamelessValue
  body : List (Bool × NamelessPredicate)
deriving DecidableEq

/-- A query as the solver file reads it (same shape as `NamelessQuery`, with
`SolveClause` groups). -/
structure SolveQuery where
  clauses : List (List SolveClause)
  goalVars : Nat
  goal : NamelessPredicate
deriving DecidableEq

/-- The ways the embedded solver can abort. -/
inductive SolveAbort where
  | assertFailed
  | unimplementedTail
  | fuelExhausted
deriving DecidableEq

/-- `State` from `naive_solve.rs`: the clauses defining a predicate, its frozen
flag, and the freshly added (`new`) and processed (`old`) tuple sets.  The
`HashSet`s are embedded as duplicate-free lists in insertion order. -/
structure SolveState where
  clauses : List SolveClause
  frozen : Bool
  fresh : List (List NamelessValue)
  old : List (List NamelessValue)
deriving DecidableEq

/-- `State::default()`. -/
def SolveState.default : SolveState := ⟨[], false, [], []⟩

/-- `HashSet::insert`: adds the element unless already present. -/
def hsInsert (l : List (List NamelessValue)) (x : List NamelessValue) :
    List (List NamelessValue) :=
  if x ∈ l then l else l ++ [x]

/-- `extend`ing a `HashSet` with a list of tuples. -/
def hsExtend (l : List (List NamelessValue)) (xs : List (List NamelessValue)) :
    List (List NamelessValue) :=
  xs.foldl hsInsert l

/-- `Model` from `naive_solve.rs` is a vector of per-predicate states. -/
def SolveModel := List SolveState

/-- Indexing `model.states[n]`; all accesses in the verified runs are in
bounds (out-of-bounds indexing would panic in Rust). -/
def SolveModel.state (m : SolveModel) (n : Nat) : SolveState :=
  (List.get? m n).getD SolveState.default

/-- Replaces state `n`. -/
def SolveModel.setState (m : SolveModel) (n : Nat) (s : SolveState) : SolveModel :=
  List.set m n s

/-- `Model::clause_satisfiable` exactly as checked in: if every body predicate
(positive or not) has an empty `new` set the clause yields nothing; otherwise
the incomplete stub yields the single junk tuple `[Var 0, …, Var (vars-1)]`
("TODO: this is just so there's no dead vars"). -/
def SolveModel.clauseSatisfiable (m : SolveModel) (c : SolveClause) :
    List (List NamelessValue) :=
  let allOld := c.body.all (fun bp => (m.state bp.2.name).fresh = [])
  if allOld then []
  else [(List.range c.vars).map NamelessValue.var]

/-- The `continue 'clauses` guard: a clause whose body negates a non-frozen
predicate cannot yet generate tuples. -/
def SolveModel.negBlocked (m : SolveModel) (c : SolveClause) : Bool :=
  c.body.any (fun bp => bp.1 && !(m.state bp.2.name).frozen)

/-- One pass of the `'clauses` loop for predicate `i`: tuples from every
non-blocked clause, pruned of tuples already in `old` or `new`. -/
def SolveModel.iterTuples (m : SolveModel) (i : Nat) : List (List NamelessValue) :=
  let st := m.state i
  ((st.clauses.filter (fun c => !(m.negBlocked c))).flatMap
      (fun c => m.clauseSatisfiable c)).filter
    (fun t => t ∉ st.old ∧ t ∉ st.fresh)

/-- The `loop` in `Model::propagate` for predicate `i`: keep sweeping while new
tuples appear. -/
def SolveModel.sweep (m : SolveModel) (i : Nat) : Nat → Except SolveAbort SolveModel
  | 0 => .error .fuelExhausted
  | fuel + 1 =>
      let ts := m.iterTuples i
      if ts = [] then .ok m
      else
        let st := m.state i
        SolveModel.sweep (m.setState i { st with fresh := hsExtend st.fresh ts }) i fuel

/-- After the sweep, `new.retain(|x| !old.contains(x))`. -/
def SolveModel.retainNotOld (m : SolveModel) (i : Nat) : SolveModel :=
  let st := m.state i
  m.setState i { st with fresh := st.fresh.filter (fun t => t ∉ st.old) }

/-- The `for i in start..len` loop body of `Model::propagate`. -/
def SolveModel.propagateRange (fuel : Nat) :
    SolveModel → List Nat → Except SolveAbort SolveModel
  | m, [] => .ok m
  | m, i :: rest => do
      let m ← m.sweep i fuel
      SolveModel.propagateRange fuel (m.retainNotOld i) rest

/-- The final phase of `Model::propagate`: move every `new` tuple of states
`start..` into `old`. -/
def SolveModel.drainFresh (m : SolveModel) (start : Nat) : SolveModel :=
  m.mapIdx (fun i st =>
    if start ≤ i then { st with old := hsExtend st.old st.fresh, fresh := [] }
    else st)

/-- `Model::propagate`. -/
def SolveModel.propagate (m : SolveModel) (fuel : Nat) : Except SolveAbort SolveModel :=
  match m.findIdx? (fun st => st.fresh ≠ []) with
  | none => .ok m
  | some start => do
      let m ← SolveModel.propagateRange fuel m (List.range' start (m.length - start))
      .ok (m.drainFresh start)

/-- The fact-seeding loop body for state `i`: every body-less clause is

* checked against `assert_eq!(clause.vars, 0)` (a violation panics), and
* inserted as a ground tuple into `new`. -/
def seedState (m : SolveModel) (i : Nat) : Except SolveAbort SolveModel :=
  (m.state i).clauses.foldlM
    (fun m c =>
      if c.body = [] then
        if c.vars ≠ 0 then .error .assertFailed
        else
          let st := m.state i
          .ok (m.setState i { st with fresh := hsInsert st.fresh c.args })
      else .ok m)
    m

/-- The full seeding loop: seed each state in turn, propagating after each. -/
def seedAll (fuel : Nat) (m : SolveModel) : List Nat → Except SolveAbort SolveModel
  | [] => .ok m
  | i :: rest => do
      let m ← seedState m i
      let m ← m.propagate fuel
      seedAll fuel m rest

/-- The builtin fact streams turned into `NamelessPredicate` tuples, exactly as
the `map_ok` closures in `naive_solve` do.  The `select` combinator interleaves
the five streams in poll order; the embedding fixes the order atoms, names,
edges, tags, blobs (the verified results do not depend on the interleaving). -/
def builtinStream (atoms : List String)
    (names edges tags : List (String × String × String))
    (blobs : List (String × String × String × String)) : List NamelessPredicate :=
  atoms.map (fun a => ⟨0, [.str a]⟩) ++
  names.map (fun t => ⟨1, [.str t.1, .str t.2.1, .str t.2.2]⟩) ++
  edges.map (fun t => ⟨2, [.str t.1, .str t.2.1, .str t.2.2]⟩) ++
  tags.map (fun t => ⟨3, [.str t.1, .str t.2.1, .str t.2.2]⟩) ++
  blobs.map (fun t => ⟨4, [.str t.1, .str t.2.1, .str t.2.2.1, .str t.2.2.2]⟩)

/-- `naive_solve`: build the model (five builtin states followed by one state
per clause group), seed body-less clauses, push every streamed tuple, freeze
the builtins, propagate, and then fall into the `unimplemented!()` tail. -/
def naiveSolve (atoms : List String)
    (names edges tags : List (String × String × String))
    (blobs : List (String × String × String × String))
    (query : SolveQuery) (fuel : Nat) :
    Except SolveAbort (List (List NamelessValue)) := do
  let m : SolveModel :=
    (List.replicate 5 SolveState.default) ++
      query.clauses.map (fun cs => { SolveState.default with clauses := cs })
  let m ← seedAll fuel m (List.range m.length)
  let m ← (builtinStream atoms names edges tags blobs).foldlM
    (fun (m : SolveModel) tuple => do
      let st := m.state tuple.name
      let m := m.setState tuple.name { st with fresh := hsInsert st.fresh tuple.args }
      m.propagate fuel)
    m
  let m : SolveModel :=
    m.mapIdx (fun i st => if i ≤ 4 then { st with frozen := true } else st)
  let _ ← SolveModel.propagate m fuel
  .error .unimplementedTail

/-- `naive_solve_selfcontained`: all five builtin streams empty. -/
def naiveSolveSelfcontained (query : SolveQuery) (fuel : Nat) :
    Except SolveAbort (List (List NamelessValue)) :=
  naiveSolve [] [] [] [] [] query fuel

/-! ### The S1 scenario, lowered

Clauses `path(X,Y) :- edge(X,Y,_). path(X,Z) :- edge(X,Y,_), path(Y,Z).` and
goal `?- path("D", X)`, lowered per `nameless.rs`: `edge` is builtin index 2,
`path` gets index 5; per-clause variables are numbered in first-occurrence
order with holes taking fresh indices. -/

/-- `path(X,Y) :- edge(X,Y,_)` lowered: `X ↦ 0`, `Y ↦ 1`, the hole `↦ 2`. -/
def s1Clause1 : SolveClause :=
  { vars := 3
    args := [.var 0, .var 1]
    body := [(false, ⟨2, [.var 0, .var 1, .var 2]⟩)] }

/-- `path(X,Z) :- edge(X,Y,_), path(Y,Z)` lowered: `X ↦ 0`, `Z ↦ 1`, `Y ↦ 2`,
the hole `↦ 3`. -/
def s1Clause2 : SolveClause :=
  { vars := 4
    args := [.var 0, .var 1]
    body := [(false, ⟨2, [.var 0, .var 2, .var 3]⟩),
             (false, ⟨5, [.var 2, .var 1]⟩)] }

/-- The lowered S1 query. -/
def s1Query : SolveQuery :=
  { clauses := [[s1Clause1, s1Clause2]]
    goalVars := 1
    goal := ⟨5, [.str "D", .var 0]⟩ }

/-- The S1 extensional edge facts (labels `""`). -/
def s1Edges : List (String × String × String) :=
  [("A", "B", ""), ("B", "C", ""), ("C", "D", ""), ("D", "B", "")]

/-- A query with a body-less clause that mentions a variable: `bad(X).` with
`bad` at user index 5 — exactly the shape the validator rejects and the
solver's seeding assertion panics on. -/
def badFactQuery : SolveQuery :=
  { clauses := [[{ vars := 1, args := [.var 0], body := [] }]]
    goalVars := 0
    goal := ⟨5, [.str "a"]⟩ }

/-! ## Validated IR (`g1-common/src/validated/mod.rs`)

Spans are specialized to `()` (the `impl Span for ()` in `mod.rs`) and omitted
from the embedded structures; no claim under verification inspects a span.
The `Arc<str>` payload of `Str` is embedded as the index of the string in the
per-query interning pool built by the visitors below, so that two values carry
the same `Arc` exactly when they carry the same index. -/

/-- `ValidatedValueInner`: a string (by pool handle) or a variable. -/
inductive ValidatedValueInner where
  | str : Nat → ValidatedValueInner
  | var : Nat → ValidatedValueInner
deriving DecidableEq

/-- `ValidatedPredicate`: builtins `=/2, atom/1, name/3, edge/3, tag/3, blob/4`
are named `-1 … -6`; user predicates are numbered from 0 in stratified order. -/
structure ValidatedPredicate where
  name : Int
  args : List ValidatedValueInner
deriving DecidableEq

/-- `ValidatedClause`: head, body of `(negated, predicate)` pairs, and the
number of variables used in the clause. -/
structure ValidatedClause where
  head : ValidatedPredicate
  body : List (Bool × ValidatedPredicate)
  vars : Nat
deriving DecidableEq

/-- `ValidatedQuery`. -/
structure ValidatedQuery where
  clauses : List ValidatedClause
  goal : ValidatedPredicate
  goalVars : Nat
deriving DecidableEq

/-! ## Validation (`g1-common/src/validated/validate.rs`) -/

/-- `ValidationError` from `validated/validate.rs` (spans omitted).  The
`NoSuchClause` built in `visitors.rs` carries a functor name `String`, which is
the `NoSuchClauseBuilding` variant's payload; we use that variant there. -/
inductive ValidationError where
  | badArgn (expected found : Nat)
  | badRecursion (caller callee : ValidatedPredicate) (negated : Bool)
  | badVariable (maxVars var : Nat)
  | illegalRecursion
  | neverUsedPositively (clause : ValidatedClause) (var : Nat)
  | noSuchClause (argn : Nat) (name : Int)
  | noSuchClauseBuilding (argn : Nat) (name : String)
deriving DecidableEq

/-- `ValidatedPredicate::for_each_var`, specialized to the bound checks it is
used for: every variable argument must satisfy `var < maxVars`. -/
def ValidatedPredicate.forEachVarBound (p : ValidatedPredicate) (maxVars : Nat) :
    Except ValidationError Unit :=
  p.args.foldlM
    (fun _ a =>
      match a with
      | .var n => if n < maxVars then .ok () else .error (.badVariable maxVars n)
      | _ => .ok ())
    ()

/-- One step of the positivity loop in `ValidatedClause::validate`: a call to
`=/2` (name `-1`) must have two arguments; a positive `=` between a variable
and a string marks the variable, while `=` between two variables is only
*collected* into `eq_vars`/`neq_vars` — the checked-in code never reads those
vectors, so the step leaves `used_positively` unchanged; any other positive
predicate marks all of its variables. -/
def usedPositivelyStep (up : List Bool) (negated : Bool)
    (pred : ValidatedPredicate) : Except ValidationError (List Bool) :=
  if pred.name = -1 then
    if pred.args.length ≠ 2 then
      .error (.badArgn 2 pred.args.length)
    else
      match pred.args.get? 0, pred.args.get? 1 with
      | some (.var _), some (.var _) => .ok up
      | some (.var v), some (.str _) => .ok (if !negated then up.set v true else up)
      | some (.str _), some (.var v) => .ok (if !negated then up.set v true else up)
      | _, _ => .ok up
  else if !negated then
    .ok (pred.args.foldl
      (fun up a => match a with | .var n => up.set n true | _ => up)
      up)
  else
    .ok up

/-- The whole positivity loop of `ValidatedClause::validate`, returning the
`used_positively` vector. -/
def ValidatedClause.usedPositively (c : ValidatedClause) :
    Except ValidationError (List Bool) :=
  c.body.foldlM (fun up bp => usedPositivelyStep up bp.1 bp.2)
    (List.replicate c.vars false)

/-- `true` iff the positivity loop succeeds and marks every variable; this is
exactly the condition under which the final loop of `ValidatedClause::validate`
does not reject. -/
def ValidatedClause.usedPositivelyOk (c : ValidatedClause) : Bool :=
  match c.usedPositively with
  | .ok up => up.all (fun b => b)
  | .error _ => false

/-- `ValidatedClause::validate`: variable bounds for the head and the body,
then positivity. -/
def ValidatedClause.validate (c : ValidatedClause) : Except ValidationError Unit := do
  c.head.forEachVarBound c.vars
  let _ ← c.body.foldlM (fun _ bp => bp.2.forEachVarBound c.vars) ()
  let up ← c.usedPositively
  match up.findIdx? (fun b => b = false) with
  | some v => .error (.neverUsedPositively c v)
  | none => .ok ()

/-- The first phase of `ValidatedQuery::validate`: validate each clause. -/
def positivityPhase : List ValidatedClause → Except ValidationError Unit
  | [] => .ok ()
  | c :: rest => do
      c.validate
      positivityPhase rest

/-- The stratification loop over one clause's body: a negated body call must
target a strictly smaller index than the head (`j >= i` is an error), a
positive one a smaller-or-equal index (`j > i` is an error). -/
def stratBodyCheck (head : ValidatedPredicate) :
    List (Bool × ValidatedPredicate) → Except ValidationError Unit
  | [] => .ok ()
  | bp :: rest =>
      if bp.1 then
        if bp.2.name ≥ head.name then .error (.badRecursion head bp.2 bp.1)
        else stratBodyCheck head rest
      else
        if bp.2.name > head.name then .error (.badRecursion head bp.2 bp.1)
        else stratBodyCheck head rest

/-- The stratification check for one clause. -/
def stratClauseCheck (c : ValidatedClause) : Except ValidationError Unit :=
  stratBodyCheck c.head c.body

/-- The second phase of `ValidatedQuery::validate`. -/
def stratPhase : List ValidatedClause → Except ValidationError Unit
  | [] => .ok ()
  | c :: rest => do
      stratClauseCheck c
      stratPhase rest

/-- The arity environment: an association list from predicate name to arity
(the `HashMap` in the source; keys are inserted at most once, so association
lookup agrees with hash lookup). -/
abbrev AritiesMap := List (Int × Nat)

/-- Lookup in the arity environment. -/
def AritiesMap.find (m : AritiesMap) (k : Int) : Option Nat :=
  (List.find? (fun e => e.1 = k) m).map Prod.snd

/-- The initial arity environment: the six builtins. -/
def builtinArities : AritiesMap :=
  [(-1, 2), (-2, 1), (-3, 3), (-4, 3), (-5, 3), (-6, 4)]

/-- The head-arity loop of `ValidatedQuery::validate`: a head whose functor is
already known must match the recorded arity; otherwise its arity is
recorded. -/
def arityHeadPhase (m : AritiesMap) :
    List ValidatedClause → Except ValidationError AritiesMap
  | [] => .ok m
  | c :: rest =>
      match m.find c.head.name with
      | some expected =>
          if expected ≠ c.head.args.length then
            .error (.badArgn expected c.head.args.length)
          else arityHeadPhase m rest
      | none => arityHeadPhase (m ++ [(c.head.name, c.head.args.length)]) rest

/-- The body-arity loop: every body call must reference a known functor with
matching arity. -/
def arityBodyPhase (m : AritiesMap) :
    List ValidatedClause → Except ValidationError Unit
  | [] => .ok ()
  | c :: rest => do
      let _ ← c.body.foldlM
        (fun _ bp =>
          match m.find bp.2.name with
          | some expected =>
              if expected ≠ bp.2.args.length then
                .error (.badArgn expected bp.2.args.length)
              else .ok ()
          | none => .error (.noSuchClause bp.2.args.length bp.2.name))
        ()
      arityBodyPhase m rest

/-- `ValidatedQuery::validate`: positivity per clause, stratification, arities,
then the goal's variable bounds. -/
def ValidatedQuery.validate (q : ValidatedQuery) : Except ValidationError Unit := do
  positivityPhase q.clauses
  stratPhase q.clauses
  let arities ← arityHeadPhase builtinArities q.clauses
  arityBodyPhase arities q.clauses
  q.goal.forEachVarBound q.goalVars

/-! ## Surface values (`g1-common/src/lang/mod.rs`)

`ValueInner` is the span-less payload of a surface value; it is also what the
frontends feed to the visitors (`visit_arg_hole` / `visit_arg_string` /
`visit_arg_var`). -/

/-- `ValueInner` from `lang/mod.rs`: a hole, a string literal, or a variable. -/
inductive ValueInner where
  | hole : ValueInner
  | str : String → ValueInner
  | var : String → ValueInner
deriving DecidableEq

/-- A body literal as fed to `ClauseVisitor::visit_body` plus its argument
visits: negation flag, functor name, arguments. -/
structure SurfaceCall where
  negated : Bool
  name : String
  args : List ValueInner
deriving DecidableEq

/-- A clause as fed to `QueryVisitor::visit_clause` and its sub-visitors. -/
structure SurfaceClause where
  name : String
  args : List ValueInner
  body : List SurfaceCall
deriving DecidableEq

/-- A query as fed to the visitors: clauses in order, then the goal. -/
structure SurfaceQuery where
  clauses : List SurfaceClause
  goalName : String
  goalArgs : List ValueInner
deriving DecidableEq

/-! ## Lowering (`g1-common/src/validated/visitors.rs`, `validated/pool.rs`) -/

/-- The string interning pool (`string_pool: HashMap<&str, Arc<str>>` in
`QueryVisitor`).  A handle — the `Arc<str>` identity in Rust — is the index of
the string in `strings`. -/
structure StringPool where
  strings : List String
deriving DecidableEq

/-- The empty pool. -/
def StringPool.empty : StringPool := ⟨[]⟩

/-- `QueryVisitor::intern_string`: return the existing handle for the string,
or allot a fresh one. -/
def StringPool.intern (p : StringPool) (s : String) : StringPool × Nat :=
  match p.strings.findIdx? (fun t => t = s) with
  | some i => (p, i)
  | none => (⟨p.strings ++ [s]⟩, p.strings.length)

/-- `Pool<&str, u32>` from `validated/pool.rs`, used for per-clause variable
numbering. -/
structure VarPool where
  pool : List (String × Nat)
  nextIndex : Nat
deriving DecidableEq

/-- The default (empty) variable pool. -/
def VarPool.empty : VarPool := ⟨[], 0⟩

/-- `Pool::intern`: variables with the same name share an index. -/
def VarPool.intern (p : VarPool) (v : String) : VarPool × Nat :=
  match List.find? (fun e => e.1 = v) p.pool with
  | some e => (p, e.2)
  | none => (⟨p.pool ++ [(v, p.nextIndex)], p.nextIndex + 1⟩, p.nextIndex)

/-- `Pool::intern_dummy`: holes take a fresh unnamed index. -/
def VarPool.internDummy (p : VarPool) : VarPool × Nat :=
  (⟨p.pool, p.nextIndex + 1⟩, p.nextIndex)

/-- The `visit_arg_*` methods shared by `ClauseVisitor`, `PredicateVisitor` and
`GoalVisitor`: holes become fresh dummy variables, strings are interned in the
query's string pool, variables in the clause's variable pool. -/
def lowerValue (sp : StringPool) (vp : VarPool) :
    ValueInner → StringPool × VarPool × ValidatedValueInner
  | .hole =>
      let (vp', n) := vp.internDummy
      (sp, vp', .var n)
  | .str s =>
      let (sp', h) := sp.intern s
      (sp', vp, .str h)
  | .var v =>
      let (vp', n) := vp.intern v
      (sp, vp', .var n)

/-- Lowers an argument list left to right. -/
def lowerValues (sp : StringPool) (vp : VarPool) :
    List ValueInner → StringPool × VarPool × List ValidatedValueInner
  | [] => (sp, vp, [])
  | v :: rest =>
      let (sp₁, vp₁, a) := lowerValue sp vp v
      let (sp₂, vp₂, args') := lowerValues sp₁ vp₁ rest
      (sp₂, vp₂, a :: args')

/-- A functor: name and arity. -/
abbrev Functor' := String × Nat

/-- The `TopologicalSort` value from the `topological_sort` crate, embedded as
the inserted nodes (in insertion order, duplicate-free) and the dependency
edges `(prec, succ)`. -/
structure TopoSort where
  nodes : List Functor'
  edges : List (Functor' × Functor')
deriving DecidableEq

/-- `TopologicalSort::insert`. -/
def TopoSort.insertNode (t : TopoSort) (f : Functor') : TopoSort :=
  if f ∈ t.nodes then t else { t with nodes := t.nodes ++ [f] }

/-- `TopologicalSort::add_dependency(prec, succ)`: registers both endpoints and
the edge. -/
def TopoSort.addDependency (t : TopoSort) (prec succ : Functor') : TopoSort :=
  let t := (t.insertNode prec).insertNode succ
  { t with edges := t.edges ++ [(prec, succ)] }

/-- A node is ready to pop when no remaining edge targets it.  (Edges whose
source has been popped are removed at pop time, so every live edge has a live
source.) -/
def TopoSort.ready (t : TopoSort) (n : Functor') : Bool :=
  !(t.edges.any (fun e => e.2 = n))

/-- `TopologicalSort::pop`: removes a ready node together with its outgoing
edges.  The crate pops an unspecified ready node; the embedding picks the first
in insertion order (whether the sort succeeds does not depend on the choice). -/
def TopoSort.pop (t : TopoSort) : Option (Functor' × TopoSort) :=
  match t.nodes.find? (fun n => t.ready n) with
  | none => none
  | some n =>
      some (n, { nodes := t.nodes.filter (fun m => m ≠ n)
                 edges := t.edges.filter (fun e => e.1 ≠ n) })

/-- The `while let Some(functor) = dependencies.pop()` loop: returns the popped
functors in order and the number of unpopped (cyclic) nodes. -/
def TopoSort.popAll (t : TopoSort) : Nat → List Functor' × Nat
  | 0 => ([], t.nodes.length)
  | fuel + 1 =>
      match t.pop with
      | none => ([], t.nodes.length)
      | some (n, t') =>
          let (rest, remaining) := t'.popAll fuel
          (n :: rest, remaining)

/-- The builtin functors, in the order of the `BUILTINS` table in
`visitors.rs`. -/
def builtinFunctors : List Functor' :=
  [("=", 2), ("atom", 1), ("name", 3), ("edge", 3), ("tag", 3), ("blob", 4)]

/-- The builtin name environment of `GoalVisitor::finish`: builtin `i` is
named `-(i + 1)`. -/
def builtinNameEnv : List (Functor' × Int) :=
  [(("=", 2), -1), (("atom", 1), -2), (("name", 3), -3),
   (("edge", 3), -4), (("tag", 3), -5), (("blob", 4), -6)]

/-- Assigns indices `0, 1, …` to the popped functors that are not already
named (the builtins are). -/
def assignNames (acc : List (Functor' × Int)) (n : Int) :
    List Functor' → List (Functor' × Int)
  | [] => acc
  | f :: rest =>
      if (List.find? (fun e => e.1 = f) acc).isSome then
        assignNames acc n rest
      else
        assignNames (acc ++ [(f, n)]) (n + 1) rest

/-- Name lookup. -/
def findName (names : List (Functor' × Int)) (f : Functor') : Option Int :=
  (List.find? (fun e => e.1 = f) names).map Prod.snd

/-- A `TemporaryClause` from `visitors.rs`: the half-built clause recorded by
`ClauseVisitor::finish`. -/
structure TemporaryClause where
  name : String
  headArgs : List ValidatedValueInner
  body : List (Bool × String × List ValidatedValueInner)
  vars : Nat
deriving DecidableEq

/-- The dependency-recording loop of `ClauseVisitor::finish`: every body
literal except a *positive* call to the clause's own head *name* (the arity is
not compared) inserts the head functor and adds a callee → caller edge. -/
def clauseFinishDeps (headName : String) (headArgn : Nat)
    (t : TopoSort) (body : List (Bool × String × List ValidatedValueInner)) :
    TopoSort :=
  body.foldl
    (fun t bp =>
      if !bp.1 && bp.2.1 = headName then t
      else
        let functor : Functor' := (headName, headArgn)
        let t := t.insertNode functor
        t.addDependency (bp.2.1, bp.2.2.length) functor)
    t

/-- The accumulated `QueryVisitor` state: recorded temporary clauses, the
dependency graph, and the string pool. -/
structure QueryVisitorState where
  clauses : List TemporaryClause
  dependencies : TopoSort
  stringPool : StringPool
deriving DecidableEq

/-- `QueryVisitor::new`: no clauses, every builtin functor registered. -/
def QueryVisitorState.new : QueryVisitorState :=
  { clauses := []
    dependencies := builtinFunctors.foldl TopoSort.insertNode ⟨[], []⟩
    stringPool := StringPool.empty }

/-- Lowers the body of a clause left to right (each `PredicateVisitor`). -/
def lowerBody (sp : StringPool) (vp : VarPool) :
    List SurfaceCall →
      StringPool × VarPool × List (Bool × String × List ValidatedValueInner)
  | [] => (sp, vp, [])
  | call :: rest =>
      let (sp₁, vp₁, args') := lowerValues sp vp call.args
      let (sp₂, vp₂, body') := lowerBody sp₁ vp₁ rest
      (sp₂, vp₂, (call.negated, call.name, args') :: body')

/-- One `visit_clause … finish` round trip: lower the head arguments, then the
body, record dependencies, and push the temporary clause. -/
def lowerClause (qv : QueryVisitorState) (sc : SurfaceClause) : QueryVisitorState :=
  let (sp₁, vp₁, headArgs) := lowerValues qv.stringPool VarPool.empty sc.args
  let (sp₂, vp₂, body') := lowerBody sp₁ vp₁ sc.body
  { clauses := qv.clauses ++ [⟨sc.name, headArgs, body', vp₂.nextIndex⟩]
    dependencies := clauseFinishDeps sc.name sc.args.length qv.dependencies body'
    stringPool := sp₂ }

/-- Converts a temporary clause body with the computed name environment: each
literal's functor is resolved, its arguments are kept as lowered. -/
def convertBody (names : List (Functor' × Int)) :
    List (Bool × String × List ValidatedValueInner) →
      Except ValidationError (List (Bool × ValidatedPredicate))
  | [] => .ok []
  | bp :: rest => do
      let n ←
        match findName names (bp.2.1, bp.2.2.length) with
        | some n => Except.ok n
        | none => Except.error (.noSuchClauseBuilding bp.2.2.length bp.2.1)
      let rest' ← convertBody names rest
      pure ((bp.1, ValidatedPredicate.mk n bp.2.2) :: rest')

/-- Converts one temporary clause with the computed name environment
(`GoalVisitor::finish`'s mapping step). -/
def convertTemporary (names : List (Functor' × Int)) (tc : TemporaryClause) :
    Except ValidationError ValidatedClause := do
  let headName ←
    match findName names (tc.name, tc.headArgs.length) with
    | some n => Except.ok n
    | none => Except.error (.noSuchClauseBuilding tc.headArgs.length tc.name)
  let body ← convertBody names tc.body
  pure ⟨⟨headName, tc.headArgs⟩, body, tc.vars⟩

/-- Converts every temporary clause (`collect::<Result<Vec<_>, _>>()`). -/
def convertTemporaries (names : List (Functor' × Int)) :
    List TemporaryClause → Except ValidationError (List ValidatedClause)
  | [] => .ok []
  | tc :: rest => do
      let c ← convertTemporary names tc
      let cs ← convertTemporaries names rest
      pure (c :: cs)

/-- Stable insertion for `clauses.sort_by_key(|clause| clause.head.name)`. -/
def insertByHeadName (c : ValidatedClause) :
    List ValidatedClause → List ValidatedClause
  | [] => [c]
  | x :: xs =>
      if x.head.name ≤ c.head.name then x :: insertByHeadName c xs
      else c :: x :: xs

/-- The stable sort by head name. -/
def sortByHeadName (l : List ValidatedClause) : List ValidatedClause :=
  l.foldl (fun acc c => insertByHeadName c acc) []

/-- `GoalVisitor::finish` after the goal's arguments have been visited:
topologically sort the functors (a leftover node is `IllegalRecursion`),
assign user indices in pop order, convert and sort the clauses, resolve the
goal functor. -/
def goalFinish (qv : QueryVisitorState) (goalName : String)
    (goalArgs : List ValidatedValueInner) (goalVars : Nat) :
    Except ValidationError (ValidatedQuery × StringPool) := do
  let (popped, remaining) := qv.dependencies.popAll qv.dependencies.nodes.length
  if remaining ≠ 0 then .error .illegalRecursion
  else do
    let names := assignNames builtinNameEnv 0 popped
    let converted ← convertTemporaries names qv.clauses
    let sorted := sortByHeadName converted
    let goalFunctorName ←
      match findName names (goalName, goalArgs.length) with
      | some n => Except.ok n
      | none => Except.error (.noSuchClauseBuilding goalArgs.length goalName)
    pure (⟨sorted, ⟨goalFunctorName, goalArgs⟩, goalVars⟩, qv.stringPool)

/-- The whole lowering pipeline of `visitors.rs`: visit every clause, visit the
goal, finish. -/
def lowerQuery (sq : SurfaceQuery) :
    Except ValidationError (ValidatedQuery × StringPool) :=
  let qv := sq.clauses.foldl lowerClause QueryVisitorState.new
  let (sp, gvp, goalArgs) := lowerValues qv.stringPool VarPool.empty sq.goalArgs
  goalFinish { qv with stringPool := sp } sq.goalName goalArgs gvp.nextIndex

/-- Lowering followed by validation (`finish` + `ValidatedQuery::validate`). -/
def lowerAndValidate (sq : SurfaceQuery) :
    Except ValidationError (ValidatedQuery × StringPool) := do
  let out ← lowerQuery sq
  out.1.validate
  pure out

/-- `true` iff lowering and validation both succeed. -/
def pipelineAccepts (sq : SurfaceQuery) : Bool :=
  match lowerAndValidate sq with
  | .ok _ => true
  | .error _ => false

/-- `true` iff lowering fails with `IllegalRecursion`. -/
def lowerIsIllegalRecursion (sq : SurfaceQuery) : Bool :=
  match lowerQuery sq with
  | .error .illegalRecursion => true
  | _ => false

/-! ### Concrete surface queries -/

/-- `atom("x"). ?- atom("x").` — a clause whose head functor is the
extensional builtin `atom/1`. -/
def atomFactQuery : SurfaceQuery :=
  { clauses := [⟨"atom", [.str "x"], []⟩]
    goalName := "atom"
    goalArgs := [.str "x"] }

/-- `'='("a", "b"). ?- '='("a", "b").` — a clause defining `=/2`. -/
def eqFactQuery : SurfaceQuery :=
  { clauses := [⟨"=", [.str "a", .str "b"], []⟩]
    goalName := "="
    goalArgs := [.str "a", .str "b"] }

/-- `edge("a", "b", "c"). ?- edge("a", "b", "c").` — a clause whose head is
the extensional builtin `edge/3`. -/
def edgeFactQuery : SurfaceQuery :=
  { clauses := [⟨"edge", [.str "a", .str "b", .str "c"], []⟩]
    goalName := "edge"
    goalArgs := [.str "a", .str "b", .str "c"] }

/-- `p(X) :- q(X). q(X) :- p(X). ?- p("a").` — a purely positive cycle between
two distinct functors. -/
def posMutualQuery : SurfaceQuery :=
  { clauses := [⟨"p", [.var "X"], [⟨false, "q", [.var "X"]⟩]⟩,
                ⟨"q", [.var "X"], [⟨false, "p", [.var "X"]⟩]⟩]
    goalName := "p"
    goalArgs := [.str "a"] }

/-- `p(X) :- !q(X). q(X) :- !p(X). ?- p("a").` — the S5 recursion-through-
negation query. -/
def negMutualQuery : SurfaceQuery :=
  { clauses := [⟨"p", [.var "X"], [⟨true, "q", [.var "X"]⟩]⟩,
                ⟨"q", [.var "X"], [⟨true, "p", [.var "X"]⟩]⟩]
    goalName := "p"
    goalArgs := [.str "a"] }

/-- `edge("A", "B", "A"). ?- edge("A", "B", "A").` — the string `"A"` occurs
twice in the clause head and twice in the goal. -/
def dupStringsQuery : SurfaceQuery :=
  { clauses := [⟨"edge", [.str "A", .str "B", .str "A"], []⟩]
    goalName := "edge"
    goalArgs := [.str "A", .str "B", .str "A"] }

/-- `p(X) :- atom(X). p(X) :- p(X). ?- p("a").` — positive self-recursion. -/
def posSelfQuery : SurfaceQuery :=
  { clauses := [⟨"p", [.var "X"], [⟨false, "atom", [.var "X"]⟩]⟩,
                ⟨"p", [.var "X"], [⟨false, "p", [.var "X"]⟩]⟩]
    goalName := "p"
    goalArgs := [.str "a"] }

/-! ## Printing and re-parsing surface values
(`g1-common/src/lang/mod.rs`, `g1-common/src/lang/lexer.rs`)

The printer is `Display for ValueInner` together with `fmt_var`; the reader is
the `logos` lexer (`Tok` and `parse_stringish`) followed by the trivial
`ValueParser` production `value := "_" | string | identifier`.  Both sides are
embedded on `List Char` (the sources under test are ASCII, so byte and
character positions coincide).  Quote, backslash and brace characters are
written via `Char.ofNat` throughout. -/

/-- `'` -/
def squote : Char := Char.ofNat 39
/-- `"` -/
def dquote : Char := Char.ofNat 34
/-- `\` -/
def bslash : Char := Char.ofNat 92
/-- `{` -/
def lbrace : Char := Char.ofNat 123
/-- `}` -/
def rbrace : Char := Char.ofNat 125
/-- Tab. -/
def tabChar : Char := Char.ofNat 9
/-- Newline. -/
def lfChar : Char := Char.ofNat 10
/-- Carriage return. -/
def crChar : Char := Char.ofNat 13

/-- `char::escape_default` from the Rust standard library (used by `fmt_var`):
named escapes for tab/CR/LF/quote/double-quote/backslash, printable ASCII
unchanged, everything else as `\u{…}` (lowercase hex). -/
def escapeDefaultChar (c : Char) : List Char :=
  if c = tabChar then [bslash, 't']
  else if c = crChar then [bslash, 'r']
  else if c = lfChar then [bslash, 'n']
  else if c = squote then [bslash, squote]
  else if c = dquote then [bslash, dquote]
  else if c = bslash then [bslash, bslash]
  else if 0x20 ≤ c.toNat ∧ c.toNat ≤ 0x7e then [c]
  else bslash :: 'u' :: lbrace :: (Nat.toDigits 16 c.toNat ++ [rbrace])

/-- The escaping performed by `{:?}` on a `str` (used by `Display` for string
values): like `escape_default` but the single quote is *not* escaped.
(Unicode printability is approximated by ASCII printability; every string
considered by the claims is ASCII.) -/
def escapeDebugChar (c : Char) : List Char :=
  if c = tabChar then [bslash, 't']
  else if c = crChar then [bslash, 'r']
  else if c = lfChar then [bslash, 'n']
  else if c = dquote then [bslash, dquote]
  else if c = bslash then [bslash, bslash]
  else if 0x20 ≤ c.toNat ∧ c.toNat ≤ 0x7e then [c]
  else bslash :: 'u' :: lbrace :: (Nat.toDigits 16 c.toNat ++ [rbrace])

/-- The character class `fmt_var` prints without quoting: ASCII letters,
underscore, hyphen. -/
def varPrintableChar (c : Char) : Bool :=
  ('A' ≤ c && c ≤ 'Z') || ('a' ≤ c && c ≤ 'z') || c = '_' || c = '-'

/-- `fmt_var` from `lang/mod.rs`: an empty or non-printable name is wrapped in
single quotes with `escape_default` applied to every character; otherwise the
name is written bare. -/
def fmtVarChars (s : List Char) : List Char :=
  let printable := s.all varPrintableChar
  if s.isEmpty || !printable then
    squote :: (s.flatMap escapeDefaultChar ++ [squote])
  else s

/-- `Display for ValueInner`: `_` for a hole, `{:?}` for a string, `fmt_var`
for a variable. -/
def printValueChars : ValueInner → List Char
  | .hole => ['_']
  | .str s => dquote :: (s.data.flatMap escapeDebugChar ++ [dquote])
  | .var v => fmtVarChars v.data

/-- The character an escape sequence `\c` denotes (`parse_stringish`'s
`StringToken` mapping); quote, double quote and backslash map to
themselves. -/
def escCharOf (c : Char) : Char :=
  if c = 't' then tabChar
  else if c = 'r' then crChar
  else if c = 'n' then lfChar
  else c

/-- The interior of a string/quoted-identifier token, simultaneously matched
against the regex `([^'"\\]|\\[trn'"\\])*` and unescaped as `parse_stringish`
does; `none` when the interior is not a valid token body. -/
def unescapeBody : List Char → Option (List Char)
  | [] => some []
  | c :: rest =>
      if c = bslash then
        match rest with
        | [] => none
        | e :: rest' =>
            if e = 't' || e = 'r' || e = 'n' ||
                e = squote || e = dquote || e = bslash then
              (unescapeBody rest').map (fun l => escCharOf e :: l)
            else none
      else if c = squote || c = dquote || c = bslash then none
      else (unescapeBody rest).map (fun l => c :: l)

/-- Strips a trailing quote character, keeping the interior. -/
def stripLast (q : Char) : List Char → Option (List Char)
  | [] => none
  | [c] => if c = q then some [] else none
  | c :: rest => (stripLast q rest).map (fun l => c :: l)

/-- First character of the bare-identifier token regex
`[A-Za-z][0-9A-Za-z_]*`. -/
def isUnquotedStart (c : Char) : Bool :=
  ('A' ≤ c && c ≤ 'Z') || ('a' ≤ c && c ≤ 'z')

/-- Continuation characters of the bare-identifier token regex. -/
def isUnquotedRest (c : Char) : Bool :=
  isUnquotedStart c || ('0' ≤ c && c ≤ '9') || c = '_'

/-- The composition of the `lang` lexer and the `ValueParser` on an input that
must form exactly one value: `_` is a hole, a double-quoted token is a string,
a single-quoted token or bare identifier is a variable; anything else — in
particular input that lexes into several tokens or fails to lex — is
rejected. -/
def parseValueChars (cs : List Char) : Option ValueInner :=
  match cs with
  | [] => none
  | c :: rest =>
      if c = '_' && rest.isEmpty then some .hole
      else if c = dquote then
        match stripLast dquote rest with
        | none => none
        | some body =>
            match unescapeBody body with
            | none => none
            | some un => some (.str (String.mk un))
      else if c = squote then
        match stripLast squote rest with
        | none => none
        | some body =>
            match unescapeBody body with
            | none => none
            | some un => some (.var (String.mk un))
      else if isUnquotedStart c && rest.all isUnquotedRest then
        some (.var (String.mk cs))
      else none

/-- The round-trip property the spec asserts, as a predicate. -/
def valueRoundTrips (v : ValueInner) : Prop :=
  parseValueChars (printValueChars v) = some v

/-- The variable names for which the claim can hold: the printer and the lexer
agree on them (start with an ASCII letter, continue with ASCII letters, digits
or underscores). -/
def safeVarName (s : List Char) : Bool :=
  match s with
  | [] => false
  | c :: rest => isUnquotedStart c && rest.all isUnquotedRest

/-- The string contents the printer escapes into exactly the sub-language the
lexer accepts: tab, CR, LF, or printable ASCII other than the single quote. -/
def safeStrChar (c : Char) : Bool :=
  c = tabChar || c = crChar || c = lfChar ||
    (0x20 ≤ c.toNat && c.toNat ≤ 0x7e && c ≠ squote)

/-- Values in the round-trippable fragment. -/
def safeValue : ValueInner → Bool
  | .hole => true
  | .str s => s.data.all safeStrChar
  | .var v => safeVarName v.data

/-! ## Lexer positions (`g1-common/src/lang/lexer.rs`) -/

/-- `Point(line, col)`. -/
structure Point where
  line : Nat
  col : Nat
deriving DecidableEq

/-- `Default for Point`: `Point(1, 0)`. -/
def Point.default : Point := ⟨1, 0⟩

/-- The position-tracking fields of `Lexer`. -/
structure LexerState where
  lastLine : Nat
  lastLinePos : Nat
  lastPos : Nat
deriving DecidableEq

/-- `Lexer::new`'s initial position state. -/
def LexerState.init : LexerState := ⟨1, 0, 0⟩

/-- The body of the `for i in self.last_pos..n` loop in `Lexer::point`: a
newline at byte `i` bumps the line and records the newline's own index as
`last_line_pos`. -/
def pointScanStep (src : List Char) (st : LexerState) (i : Nat) : LexerState :=
  if src.get? i = some lfChar then
    { st with lastLinePos := i, lastLine := st.lastLine + 1 }
  else st

/-- Runs the scan over `k` indices starting at `i`. -/
def pointScan (src : List Char) (st : LexerState) (i : Nat) : Nat → LexerState
  | 0 => st
  | k + 1 => pointScan src (pointScanStep src st i) (i + 1) k

/-- `Lexer::point(n)`: scan from `last_pos` to `n`, then report
`Point(last_line, n - last_line_pos)` (the `assert!(n >= self.last_pos)` holds
for every call made with a fresh lexer). -/
def lexerPoint (src : List Char) (st : LexerState) (n : Nat) : LexerState × Point :=
  let st₁ := pointScan src st st.lastPos (n - st.lastPos)
  let st₂ := { st₁ with lastPos := n }
  (st₂, ⟨st₂.lastLine, n - st₂.lastLinePos⟩)

/-- Whether byte `n` starts a line of `src`: it is byte 0 or preceded by a
newline. -/
def isLineStart (src : List Char) (n : Nat) : Bool :=
  n = 0 || src.get? (n - 1) = some lfChar

/-- The number of newlines among the first `n` characters. -/
def newlineCount (src : List Char) : Nat → Nat
  | 0 => 0
  | n + 1 => newlineCount src n + (if src.get? n = some lfChar then 1 else 0)

/-- The index of the last newline among the first `n` characters, if any. -/
def lastNewlineIdx (src : List Char) : Nat → Option Nat
  | 0 => none
  | n + 1 => if src.get? n = some lfChar then some n else lastNewlineIdx src n

/-! ### String handles occurring in a lowered query -/

/-- The string handles of one value. -/
def handlesOfValue : ValidatedValueInner → List Nat
  | .str h => [h]
  | .var _ => []

/-- The string handles of an argument list. -/
def handlesOfArgs (args : List ValidatedValueInner) : List Nat :=
  args.flatMap handlesOfValue

/-- The string handles of a temporary clause (head and body arguments). -/
def handlesOfTemporary (tc : TemporaryClause) : List Nat :=
  handlesOfArgs tc.headArgs ++ tc.body.flatMap (fun bp => handlesOfArgs bp.2.2)

/-- The string handles of a validated clause (head and body arguments). -/
def handlesOfClause (c : ValidatedClause) : List Nat :=
  handlesOfArgs c.head.args ++ c.body.flatMap (fun bp => handlesOfArgs bp.2.args)

/-- Every string handle occurring anywhere in a lowered query: clause heads,
body literals, and the goal. -/
def handlesOfQuery (vq : ValidatedQuery) : List Nat :=
  vq.clauses.flatMap handlesOfClause ++ handlesOfArgs vq.goal.args

/-- The invariant carried through lowering: the string pool has no duplicate
contents and every handle recorded so far points into it. -/
def QVInv (qv : QueryVisitorState) : Prop :=
  qv.stringPool.strings.Nodup ∧
    ∀ tc ∈ qv.clauses, ∀ h ∈ handlesOfTemporary tc,
      h < qv.stringPool.strings.length

/-! ### Miscellaneous concrete clauses and the stratification property -/

/-- The ordering the stratification phase enforces, as a proposition: in every
clause, each negated body call targets a strictly smaller predicate index than
the head and each positive body call a smaller-or-equal index. -/
def stratOk (q : ValidatedQuery) : Prop :=
  ∀ c ∈ q.clauses, ∀ bp ∈ c.body,
    (bp.1 = true → bp.2.name < c.head.name) ∧
    (bp.1 = false → bp.2.name ≤ c.head.name)

/-- A well-formed clause `p(X) :- atom(X)` (with `p` at user index 0). -/
def samplePosClause : ValidatedClause :=
  { head := ⟨0, [.var 0]⟩
    body := [(false, ⟨-2, [.var 0]⟩)]
    vars := 1 }

/-- The well-formed query `p(X) :- atom(X). ?- p("h").` over the validated
IR (the goal's string has pool handle 0). -/
def sampleValidatedQuery : ValidatedQuery :=
  { clauses := [samplePosClause]
    goal := ⟨0, [.str 0]⟩
    goalVars := 0 }

/-- The S4 clause `bad(X) :- !p(X).` over the validated IR (`bad` at user
index 1, `p` at user index 0): variable `X` occurs only in the head and a
negated literal. -/
def badNegClause : ValidatedClause :=
  { head := ⟨1, [.var 0]⟩
    body := [(true, ⟨0, [.var 0]⟩)]
    vars := 1 }

/-- The clause `p(X) :- q(Y), '='(X, Y).` over the validated IR (`p` at index
6, `q` at index 7): the head variable `X`'s only body occurrence is in a
positive variable-to-variable `=/2` literal. -/
def eqOnlyClause : ValidatedClause :=
  { head := ⟨6, [.var 0]⟩
    body := [(false, ⟨7, [.var 1]⟩), (false, ⟨-1, [.var 0, .var 1]⟩)]
    vars := 2 }

/-! # Theorems -/

/-- **C1.** The claim: for the S1 scenario — extensional edge facts
`("A","B"), ("B","C"), ("C","D"), ("D","B")` (labels `""`), clauses
`path(X,Y) :- edge(X,Y,_)` and `path(X,Z) :- edge(X,Y,_), path(Y,Z)`, goal
`?- path("D", X)` — the solver returns exactly `{("B"), ("C"), ("D")}`.  What
the checked-in `naive_solve` actually does on this input: it seeds, streams the
edge facts through its (stubbed) propagation, freezes the builtins, and then
aborts in its `unimplemented!()` tail, returning no answer set at all. -/
theorem c1_s1_naive_solve_hits_unimplemented :
    naiveSolve [] [] s1Edges [] [] s1Query 50 = .error .unimplementedTail := rfl

/-- Decomposes a successful `Except` bind into its two successful stages. -/
theorem exceptBindOk {ε α β : Type} {e : Except ε α} {f : α → Except ε β} {b : β}
    (h : (e >>= f) = .ok b) : ∃ a, e = .ok a ∧ f a = .ok b := by
  cases e with
  | error err => cases h
  | ok a => exact ⟨a, rfl, h⟩

/-- Validating head arguments never marks a variable as used positively:
`namelessValidateArgs` with `negated = true` returns its `positivities` input
unchanged whenever it succeeds. -/
theorem namelessValidateArgs_negated_id
    {l : List NamelessValue} {pos pos' : List Bool}
    (h : namelessValidateArgs true pos l = .ok pos') : pos' = pos := by
  induction l generalizing pos with
  | nil =>
      simp only [namelessValidateArgs] at h
      exact (Except.ok.inj h).symm
  | cons a rest ih =>
      simp only [namelessValidateArgs] at h
      obtain ⟨p, hp, hrest⟩ := exceptBindOk h
      have h₁ : pos' = p := ih hrest
      have h₂ : p = pos := by
        cases a with
        | var n =>
            simp only [NamelessValue.validate] at hp
            by_cases hn : n < pos.length
            · simp only [hn, if_pos] at hp
              simpa using (Except.ok.inj hp).symm
            · simp [hn] at hp
        | metaVar s => exact (Except.ok.inj hp).symm
        | str s => exact (Except.ok.inj hp).symm
      exact h₁.trans h₂

/-- **C10.** For every clause the (nameless) validator accepts, a body-less
clause has variable count zero — so the solver's seeding assertion
`assert_eq!(clause.vars, 0)` can never fire on a validated query — while
running the solver on an unvalidated query whose body-less clause mentions a
variable aborts with the assertion failure (a panic) instead of returning an
error value. -/
theorem c10_validated_facts_are_ground :
    (∀ (c : NamelessClause) (predNum : Nat),
        c.validate predNum = .ok () → c.bodyPos = [] → c.bodyNeg = [] →
          c.vars = 0) ∧
    naiveSolveSelfcontained badFactQuery 50 = .error .assertFailed := by
  refine ⟨?_, rfl⟩
  rintro ⟨vars, head, bodyPos, bodyNeg⟩ predNum h hp hn
  subst hp hn
  simp only [NamelessClause.validate, namelessValidateBody] at h
  obtain ⟨pos, hh, h⟩ := exceptBindOk h
  obtain ⟨pos₁, hb₁, h⟩ := exceptBindOk h
  obtain ⟨pos₂, hb₂, h⟩ := exceptBindOk h
  have hpos := namelessValidateArgs_negated_id hh
  subst hpos
  cases Except.ok.inj hb₁
  cases Except.ok.inj hb₂
  cases vars with
  | zero => rfl
  | succ v =>
      simp only [List.replicate, firstNonPositive, List.findIdx?_cons] at h
      simp at h

/-- Witness for C10: the assertion-safety implication applies to the concrete
validated ground fact `fact("a").` (head index 5). -/
theorem c10_witness :
    (⟨0, [.str "a"], [], []⟩ : NamelessClause).vars = 0 :=
  c10_validated_facts_are_ground.1 ⟨0, [.str "a"], [], []⟩ 5 rfl rfl rfl

/-- **C3 counterexample.** The claim says cycles consisting entirely of
positive body literals are allowed; but lowering the purely positive mutual
recursion `p(X) :- q(X). q(X) :- p(X). ?- p("a").` fails with
`IllegalRecursion`: `ClauseVisitor::finish` adds a call-graph edge for every
body literal that is not a positive self-call, so the positive `p`/`q` cycle is
a cycle in the topological sort. -/
theorem c3_counterexample_positive_cycle_rejected :
    lowerIsIllegalRecursion posMutualQuery = true := rfl

/-- **C3 (amended).** During lowering, any cycle among *distinct* functors is
an `IllegalRecursion` error whether its edges are positive or negated — only a
positive call of a clause to its own head name escapes the call graph.  In
particular `p(X) :- !q(X). q(X) :- !p(X).` is rejected with `IllegalRecursion`,
while positive self-recursion (`p(X) :- atom(X). p(X) :- p(X).`) lowers and
validates successfully. -/
theorem c3_amended_cycles :
    lowerIsIllegalRecursion negMutualQuery = true ∧
    pipelineAccepts posSelfQuery = true := ⟨rfl, rfl⟩

/-- **C6 counterexample.** The claim says lowering plus validation rejects any
query containing a clause whose head functor is one of the five extensional
builtins; but the fact `atom("x").` (with goal `?- atom("x").`) is lowered —
its head is simply resolved to the builtin index `-2` — and then passes
validation. -/
theorem c6_counterexample_atom_head_accepted :
    pipelineAccepts atomFactQuery = true := rfl

/-- **C6 (amended).** Lowering resolves a clause head naming a builtin functor
to that builtin's negative index instead of rejecting it, and validation
accepts such clauses when its ordinary checks pass: the facts
`'='("a","b").` (defining `=/2`) and `edge("a","b","c").` (defining the
extensional builtin `edge/3`) both pass lowering plus validation. -/
theorem c6_amended_builtin_heads_lower :
    pipelineAccepts eqFactQuery = true ∧
    pipelineAccepts edgeFactQuery = true := ⟨rfl, rfl⟩

/-- **C8 counterexample.** The claim says the first character of a line is
reported at column 0 regardless of the line.  On the source `"a\nb"`, byte 2
(the `b`) starts line 2, yet a fresh lexer reports it at column 1. -/
theorem c8_counterexample_line_start_column :
    isLineStart ['a', lfChar, 'b'] 2 = true ∧
    (lexerPoint ['a', lfChar, 'b'] LexerState.init 2).2.col ≠ 0 := by
  exact ⟨rfl, by decide⟩

/-- Processing one more byte in `Lexer::point`'s scan is a step applied after
the shorter scan. -/
theorem pointScan_snoc (src : List Char) (st : LexerState) (i k : Nat) :
    pointScan src st i (k + 1) =
      pointScanStep src (pointScan src st i k) (i + k) := by
  induction k generalizing st i with
  | zero => simp [pointScan]
  | succ k ih =>
      show pointScan src (pointScanStep src st i) (i + 1) (k + 1) = _
      rw [ih]
      have : i + 1 + k = i + (k + 1) := by omega
      rw [this]
      rfl

/-- The scan from a fresh lexer computes the line as one plus the newline
count and `last_line_pos` as the index of the latest newline itself (0 when
none has been seen). -/
theorem pointScan_init_spec (src : List Char) (n : Nat) :
    (pointScan src LexerState.init 0 n).lastLine = 1 + newlineCount src n ∧
    (pointScan src LexerState.init 0 n).lastLinePos =
      (lastNewlineIdx src n).getD 0 := by
  induction n with
  | zero => simp [pointScan, LexerState.init, newlineCount, lastNewlineIdx]
  | succ n ih =>
      rw [pointScan_snoc]
      simp only [Nat.zero_add, pointScanStep, newlineCount, lastNewlineIdx]
      by_cases hc : src[n]? = some lfChar
      · simp only [List.get?_eq_getElem?, hc, if_pos]
        exact ⟨by rw [ih.1]; omega, rfl⟩
      · simp only [List.get?_eq_getElem?, hc, if_neg, if_false]
        simpa using ⟨ih.1, ih.2⟩

/-- **C8 (amended).** A position reported from a fresh lexer has a 1-based
line number (one plus the number of newlines before the byte) and a column
equal to the byte offset minus the index of the latest newline *itself* (0 when
there is none): columns are 0-based offsets on line 1, but on every later line
the first character is reported at column 1, because `last_line_pos` records
the newline's own index rather than the position after it. -/
theorem c8_amended_point_characterization (src : List Char) (n : Nat) :
    (lexerPoint src LexerState.init n).2 =
      ⟨1 + newlineCount src n, n - (lastNewlineIdx src n).getD 0⟩ := by
  obtain ⟨h1, h2⟩ := pointScan_init_spec src n
  simp only [lexerPoint, LexerState.init, Nat.sub_zero] at h1 h2 ⊢
  rw [h1, h2]

/-- Binding an `Except` error short-circuits. -/
@[simp] theorem exceptBindErr {ε α β : Type} (e : ε) (f : α → Except ε β) :
    (Except.error e >>= f) = Except.error e := rfl

/-- Binding an `Except` success applies the continuation. -/
@[simp] theorem exceptBindOkEq {ε α β : Type} (a : α) (f : α → Except ε β) :
    (Except.ok a >>= f) = f a := rfl

/-- A body accepted by the stratification loop satisfies the index
ordering. -/
theorem stratBodyCheck_ok {head : ValidatedPredicate}
    {body : List (Bool × ValidatedPredicate)}
    (h : stratBodyCheck head body = .ok ()) :
    ∀ bp ∈ body,
      (bp.1 = true → bp.2.name < head.name) ∧
      (bp.1 = false → bp.2.name ≤ head.name) := by
  induction body with
  | nil => intro bp hbp; cases hbp
  | cons bp rest ih =>
      simp only [stratBodyCheck] at h
      by_cases hneg : bp.1 = true
      · rw [if_pos hneg] at h
        by_cases hge : bp.2.name ≥ head.name
        · rw [if_pos hge] at h; cases h
        · rw [if_neg hge] at h
          intro b hb
          rcases List.mem_cons.mp hb with rfl | hb
          · exact ⟨fun _ => lt_of_not_ge hge, fun hf => by rw [hneg] at hf; cases hf⟩
          · exact ih h b hb
      · rw [if_neg hneg] at h
        by_cases hgt : bp.2.name > head.name
        · rw [if_pos hgt] at h; cases h
        · rw [if_neg hgt] at h
          intro b hb
          rcases List.mem_cons.mp hb with rfl | hb
          · exact ⟨fun ht => (hneg ht).elim, fun _ => le_of_not_gt hgt⟩
          · exact ih h b hb

/-- A body rejected by the stratification loop is rejected with
`BadRecursion` naming the clause's head as the caller. -/
theorem stratBodyCheck_error {head : ValidatedPredicate}
    {body : List (Bool × ValidatedPredicate)}
    (h : stratBodyCheck head body ≠ .ok ()) :
    ∃ callee negated,
      stratBodyCheck head body = .error (.badRecursion head callee negated) := by
  induction body with
  | nil => exact absurd rfl h
  | cons bp rest ih =>
      simp only [stratBodyCheck] at h ⊢
      by_cases hneg : bp.1 = true
      · rw [if_pos hneg] at h ⊢
        by_cases hge : bp.2.name ≥ head.name
        · rw [if_pos hge]; exact ⟨bp.2, bp.1, rfl⟩
        · rw [if_neg hge] at h ⊢; exact ih h
      · rw [if_neg hneg] at h ⊢
        by_cases hgt : bp.2.name > head.name
        · rw [if_pos hgt]; exact ⟨bp.2, bp.1, rfl⟩
        · rw [if_neg hgt] at h ⊢; exact ih h

/-- A clause list accepted by the stratification phase has every clause
accepted by the per-clause check. -/
theorem stratPhase_ok {cs : List ValidatedClause}
    (h : stratPhase cs = .ok ()) :
    ∀ c ∈ cs, stratClauseCheck c = .ok () := by
  induction cs with
  | nil => intro c hc; cases hc
  | cons c rest ih =>
      simp only [stratPhase] at h
      obtain ⟨u, hu, hrest⟩ := exceptBindOk h
      intro d hd
      rcases List.mem_cons.mp hd with rfl | hd
      · cases u; exact hu
      · exact ih hrest d hd

/-- A clause list rejected by the stratification phase is rejected with a
`BadRecursion` error. -/
theorem stratPhase_error {cs : List ValidatedClause}
    (h : stratPhase cs ≠ .ok ()) :
    ∃ caller callee negated,
      stratPhase cs = .error (.badRecursion caller callee negated) := by
  induction cs with
  | nil => exact absurd rfl h
  | cons c rest ih =>
      simp only [stratPhase] at h ⊢
      cases hc : stratClauseCheck c with
      | error e =>
          have hne : stratBodyCheck c.head c.body ≠ .ok () := by
            rw [show stratBodyCheck c.head c.body = stratClauseCheck c from rfl, hc]
            simp
          obtain ⟨callee, neg, heq⟩ := stratBodyCheck_error hne
          refine ⟨c.head, callee, neg, ?_⟩
          have heq' : stratClauseCheck c = .error (.badRecursion c.head callee neg) := heq
          rw [hc] at heq'
          have he : e = .badRecursion c.head callee neg := Except.error.inj heq'
          subst he
          simp [hc]
      | ok u =>
          cases u
          simp only [hc, exceptBindOkEq] at h ⊢
          exact ih h

/-- A successfully validated query passed its stratification phase. -/
theorem validate_ok_stratPhase {q : ValidatedQuery}
    (h : q.validate = .ok ()) : stratPhase q.clauses = .ok () := by
  simp only [ValidatedQuery.validate] at h
  obtain ⟨u1, h1, h⟩ := exceptBindOk h
  obtain ⟨u2, h2, h⟩ := exceptBindOk h
  cases u2
  exact h2

/-- If every clause passes `ValidatedClause::validate`, the positivity phase
succeeds. -/
theorem positivityPhase_ok_of {cs : List ValidatedClause}
    (h : ∀ c ∈ cs, c.validate = .ok ()) : positivityPhase cs = .ok () := by
  induction cs with
  | nil => rfl
  | cons c rest ih =>
      simp only [positivityPhase, h c (List.mem_cons_self c rest), exceptBindOkEq]
      exact ih (fun d hd => h d (List.mem_cons_of_mem c hd))

/-- **C2.** Validation accepts a query only if, in every clause, every
positive body call targets an index at most the head's index and every negated
body call an index strictly below it; and a query violating this ordering whose
clauses individually pass the positivity check is rejected with a
`BadRecursion` (stratification) error. -/
theorem c2_stratification_ordering (q : ValidatedQuery) :
    (q.validate = .ok () → stratOk q) ∧
    ((∀ c ∈ q.clauses, c.validate = .ok ()) → ¬ stratOk q →
      ∃ caller callee negated,
        q.validate = .error (.badRecursion caller callee negated)) := by
  constructor
  · intro h c hc bp hbp
    exact stratBodyCheck_ok (stratPhase_ok (validate_ok_stratPhase h) c hc) bp hbp
  · intro hall hns
    have hpos := positivityPhase_ok_of hall
    have hne : stratPhase q.clauses ≠ .ok () := fun hok =>
      hns (fun c hc bp hbp => stratBodyCheck_ok (stratPhase_ok hok c hc) bp hbp)
    obtain ⟨caller, callee, neg, heq⟩ := stratPhase_error hne
    refine ⟨caller, callee, neg, ?_⟩
    simp only [ValidatedQuery.validate, hpos, exceptBindOkEq, heq, exceptBindErr]

/-- Witness for C2: the accepted query `p(X) :- atom(X). ?- p("h").` satisfies
the stratification ordering. -/
theorem c2_witness : stratOk sampleValidatedQuery :=
  (c2_stratification_ordering sampleValidatedQuery).1 rfl

/-- A `findIdx?` search for a `false` entry that comes up empty means every
entry is `true`. -/
theorem allTrueOfFindIdxNone {l : List Bool}
    (h : l.findIdx? (fun b => b = false) = none) : l.all (fun b => b) = true := by
  induction l with
  | nil => rfl
  | cons b t ih =>
      rw [List.findIdx?_cons] at h
      cases b with
      | false => simp at h
      | true =>
          simp only [List.all_cons, Bool.true_and]
          exact ih (by simpa using h)

/-- **C5.** Every clause the validator accepts has each of its variables
marked as used positively (so a variable occurring only in the head or only in
negated body literals forces rejection), and the S4 clause `bad(X) :- !p(X).`
is rejected with `NeverUsedPositively` for its variable `X` (index 0). -/
theorem c5_positivity_enforced :
    (∀ c : ValidatedClause, c.validate = .ok () → c.usedPositivelyOk = true) ∧
    badNegClause.validate = .error (.neverUsedPositively badNegClause 0) := by
  refine ⟨?_, rfl⟩
  intro c h
  simp only [ValidatedClause.validate] at h
  obtain ⟨u1, h1, h⟩ := exceptBindOk h
  obtain ⟨u2, h2, h⟩ := exceptBindOk h
  obtain ⟨up, hup, h⟩ := exceptBindOk h
  cases hf : up.findIdx? (fun b => b = false) with
  | some v => rw [hf] at h; cases h
  | none =>
      simp only [ValidatedClause.usedPositivelyOk, hup]
      exact allTrueOfFindIdxNone hf

/-- Witness for C5: the accepted clause `p(X) :- atom(X).` has every variable
used positively. -/
theorem c5_witness : samplePosClause.usedPositivelyOk = true :=
  c5_positivity_enforced.1 samplePosClause rfl

/-- **C4.** The claim says a positive variable-to-variable `=/2` literal binds
both variables, so a clause whose head variable's only body occurrence is such
an equation is accepted.  What the code actually does on
`p(X) :- q(Y), '='(X, Y).`: the positivity loop only *collects* the pair into
`eq_vars` and never reads it, so `X` stays unmarked and the clause is rejected
with `NeverUsedPositively`. -/
theorem c4_positive_eq_binds_nothing :
    eqOnlyClause.validate = .error (.neverUsedPositively eqOnlyClause 0) := rfl

/-! ### String-interning invariants (C9) -/

/-- A successful `findIdx?` stays within the list. -/
theorem findIdx?_some_lt {α : Type} {p : α → Bool} {l : List α} {i : Nat}
    (h : l.findIdx? p = some i) : i < l.length :=
  (List.findIdx?_eq_some_iff_findIdx_eq.mp h).1

/-- An empty `findIdx?` means no element satisfies the predicate. -/
theorem findIdx?_none_all_false {α : Type} {p : α → Bool} {l : List α}
    (h : l.findIdx? p = none) : ∀ x ∈ l, p x = false :=
  List.findIdx?_eq_none_iff.mp h

/-- Interning only ever appends to the pool. -/
theorem intern_extends (p : StringPool) (s : String) :
    ∃ t, (p.intern s).1.strings = p.strings ++ t := by
  cases h : p.strings.findIdx? (fun t => t = s) with
  | some i => exact ⟨[], by simp [StringPool.intern, h]⟩
  | none => exact ⟨[s], by simp [StringPool.intern, h]⟩

/-- The handle returned by interning points into the resulting pool. -/
theorem intern_handle_lt (p : StringPool) (s : String) :
    (p.intern s).2 < (p.intern s).1.strings.length := by
  cases h : p.strings.findIdx? (fun t => t = s) with
  | some i =>
      simpa [StringPool.intern, h] using findIdx?_some_lt h
  | none => simp [StringPool.intern, h]

/-- Interning preserves the no-duplicates invariant of the pool. -/
theorem intern_nodup {p : StringPool} (s : String) (h : p.strings.Nodup) :
    (p.intern s).1.strings.Nodup := by
  cases hf : p.strings.findIdx? (fun t => t = s) with
  | some i => simpa [StringPool.intern, hf] using h
  | none =>
      have hs : s ∉ p.strings := by
        intro hmem
        have := findIdx?_none_all_false hf s hmem
        simp at this
      simp only [StringPool.intern, hf]
      rw [List.nodup_append]
      exact ⟨h, List.nodup_singleton s,
        fun a ha hb => by rw [List.mem_singleton.mp hb] at ha; exact hs ha⟩

/-- Lowering a single value extends the pool, preserves its no-duplicates
invariant, and produces only in-bounds handles. -/
theorem lowerValue_inv {sp : StringPool} {vp : VarPool} {v : ValueInner}
    {sp' : StringPool} {vp' : VarPool} {a : ValidatedValueInner}
    (h : lowerValue sp vp v = (sp', vp', a)) :
    (∃ t, sp'.strings = sp.strings ++ t) ∧
    (sp.strings.Nodup → sp'.strings.Nodup) ∧
    (∀ hh ∈ handlesOfValue a, hh < sp'.strings.length) := by
  cases v with
  | hole =>
      simp only [lowerValue] at h
      rcases hi : vp.internDummy with ⟨vpi, n⟩
      rw [hi] at h
      rw [Prod.mk.injEq, Prod.mk.injEq] at h
      obtain ⟨rfl, rfl, rfl⟩ := h
      exact ⟨⟨[], by simp⟩, id, by simp [handlesOfValue]⟩
  | var w =>
      simp only [lowerValue] at h
      rcases hi : vp.intern w with ⟨vpi, n⟩
      rw [hi] at h
      rw [Prod.mk.injEq, Prod.mk.injEq] at h
      obtain ⟨rfl, rfl, rfl⟩ := h
      exact ⟨⟨[], by simp⟩, id, by simp [handlesOfValue]⟩
  | str s =>
      simp only [lowerValue] at h
      rcases hi : sp.intern s with ⟨spi, hI⟩
      rw [hi] at h
      rw [Prod.mk.injEq, Prod.mk.injEq] at h
      obtain ⟨rfl, rfl, rfl⟩ := h
      refine ⟨by simpa [hi] using intern_extends sp s,
        fun hn => by simpa [hi] using intern_nodup s hn, ?_⟩
      intro hh hmem
      simp only [handlesOfValue, List.mem_singleton] at hmem
      subst hmem
      simpa [hi] using intern_handle_lt sp s

/-- `lowerValue_inv`, lifted to argument lists. -/
theorem lowerValues_inv {sp : StringPool} {vp : VarPool} {l : List ValueInner}
    {sp' : StringPool} {vp' : VarPool} {args' : List ValidatedValueInner}
    (h : lowerValues sp vp l = (sp', vp', args')) :
    (∃ t, sp'.strings = sp.strings ++ t) ∧
    (sp.strings.Nodup → sp'.strings.Nodup) ∧
    (∀ hh ∈ handlesOfArgs args', hh < sp'.strings.length) := by
  induction l generalizing sp vp args' with
  | nil =>
      simp only [lowerValues] at h
      rw [Prod.mk.injEq, Prod.mk.injEq] at h
      obtain ⟨rfl, rfl, rfl⟩ := h
      exact ⟨⟨[], by simp⟩, id, by simp [handlesOfArgs]⟩
  | cons v rest ih =>
      simp only [lowerValues] at h
      rcases h₁ : lowerValue sp vp v with ⟨sp₁, vp₁, a⟩
      rw [h₁] at h
      rcases h₂ : lowerValues sp₁ vp₁ rest with ⟨sp₂, vp₂, rest'⟩
      rw [h₂] at h
      rw [Prod.mk.injEq, Prod.mk.injEq] at h
      obtain ⟨rfl, rfl, rfl⟩ := h
      obtain ⟨⟨t₁, he₁⟩, hn₁, hb₁⟩ := lowerValue_inv h₁
      obtain ⟨⟨t₂, he₂⟩, hn₂, hb₂⟩ := ih h₂
      refine ⟨⟨t₁ ++ t₂, by rw [he₂, he₁, List.append_assoc]⟩,
        fun hn => hn₂ (hn₁ hn), ?_⟩
      intro hh hmem
      simp only [handlesOfArgs, List.flatMap_cons, List.mem_append] at hmem
      rcases hmem with hmem | hmem
      · have hle : sp₁.strings.length ≤ sp₂.strings.length := by
          rw [he₂]; simp
        exact Nat.lt_of_lt_of_le (hb₁ hh hmem) hle
      · exact hb₂ hh hmem

/-- `lowerValue_inv`, lifted to whole clause bodies. -/
theorem lowerBody_inv {sp : StringPool} {vp : VarPool} {body : List SurfaceCall}
    {sp' : StringPool} {vp' : VarPool}
    {body' : List (Bool × String × List ValidatedValueInner)}
    (h : lowerBody sp vp body = (sp', vp', body')) :
    (∃ t, sp'.strings = sp.strings ++ t) ∧
    (sp.strings.Nodup → sp'.strings.Nodup) ∧
    (∀ hh ∈ body'.flatMap (fun bp => handlesOfArgs bp.2.2),
      hh < sp'.strings.length) := by
  induction body generalizing sp vp body' with
  | nil =>
      simp only [lowerBody] at h
      rw [Prod.mk.injEq, Prod.mk.injEq] at h
      obtain ⟨rfl, rfl, rfl⟩ := h
      exact ⟨⟨[], by simp⟩, id, by simp⟩
  | cons call rest ih =>
      simp only [lowerBody] at h
      rcases h₁ : lowerValues sp vp call.args with ⟨sp₁, vp₁, args'⟩
      rw [h₁] at h
      rcases h₂ : lowerBody sp₁ vp₁ rest with ⟨sp₂, vp₂, rest'⟩
      rw [h₂] at h
      rw [Prod.mk.injEq, Prod.mk.injEq] at h
      obtain ⟨rfl, rfl, rfl⟩ := h
      obtain ⟨⟨t₁, he₁⟩, hn₁, hb₁⟩ := lowerValues_inv h₁
      obtain ⟨⟨t₂, he₂⟩, hn₂, hb₂⟩ := ih h₂
      refine ⟨⟨t₁ ++ t₂, by rw [he₂, he₁, List.append_assoc]⟩,
        fun hn => hn₂ (hn₁ hn), ?_⟩
      intro hh hmem
      simp only [List.flatMap_cons, List.mem_append] at hmem
      rcases hmem with hmem | hmem
      · have hle : sp₁.strings.length ≤ sp₂.strings.length := by
          rw [he₂]; simp
        exact Nat.lt_of_lt_of_le (hb₁ hh hmem) hle
      · exact hb₂ hh hmem

/-- The lowering invariant holds of the fresh visitor. -/
theorem QVInv_new : QVInv QueryVisitorState.new := by
  constructor
  · exact List.nodup_nil
  · intro tc htc; cases htc

/-- Visiting one clause preserves the lowering invariant. -/
theorem lowerClause_inv {qv : QueryVisitorState} {sc : SurfaceClause}
    (h : QVInv qv) : QVInv (lowerClause qv sc) := by
  obtain ⟨hnod, hbound⟩ := h
  simp only [lowerClause]
  rcases h₁ : lowerValues qv.stringPool VarPool.empty sc.args with ⟨sp₁, vp₁, headArgs⟩
  rcases h₂ : lowerBody sp₁ vp₁ sc.body with ⟨sp₂, vp₂, body'⟩
  obtain ⟨⟨t₁, he₁⟩, hn₁, hb₁⟩ := lowerValues_inv h₁
  obtain ⟨⟨t₂, he₂⟩, hn₂, hb₂⟩ := lowerBody_inv h₂
  have hle₁ : sp₁.strings.length ≤ sp₂.strings.length := by rw [he₂]; simp
  have hle₀ : qv.stringPool.strings.length ≤ sp₁.strings.length := by
    rw [he₁]; simp
  constructor
  · exact hn₂ (hn₁ hnod)
  · intro tc htc hh hmem
    rcases List.mem_append.mp htc with htc | htc
    · exact Nat.lt_of_lt_of_le (hbound tc htc hh hmem) (Nat.le_trans hle₀ hle₁)
    · rw [List.mem_singleton.mp htc] at hmem
      rw [handlesOfTemporary, List.mem_append] at hmem
      rcases hmem with hmem | hmem
      · exact Nat.lt_of_lt_of_le (hb₁ hh hmem) hle₁
      · exact hb₂ hh hmem

/-- Folding the clause visitor over any clause list preserves the
invariant. -/
theorem foldl_lowerClause_inv {cs : List SurfaceClause} {qv : QueryVisitorState}
    (h : QVInv qv) : QVInv (cs.foldl lowerClause qv) := by
  induction cs generalizing qv with
  | nil => exact h
  | cons c rest ih => exact ih (lowerClause_inv h)

/-- Body conversion keeps exactly the argument handles it was given. -/
theorem convertBody_handles {names : List (Functor' × Int)}
    {body : List (Bool × String × List ValidatedValueInner)}
    {body' : List (Bool × ValidatedPredicate)}
    (h : convertBody names body = .ok body') :
    ∀ hh ∈ body'.flatMap (fun bp => handlesOfArgs bp.2.args),
      hh ∈ body.flatMap (fun bp => handlesOfArgs bp.2.2) := by
  induction body generalizing body' with
  | nil =>
      simp only [convertBody] at h
      cases h
      intro hh hmem
      cases hmem
  | cons bp rest ih =>
      simp only [convertBody] at h
      cases hname : findName names (bp.2.1, bp.2.2.length) with
      | none => rw [hname] at h; cases h
      | some n =>
          rw [hname] at h
          simp only [exceptBindOkEq] at h
          obtain ⟨rest', hrest, h⟩ := exceptBindOk h
          have h' := Except.ok.inj h
          subst h'
          intro hh hmem
          rw [List.flatMap_cons, List.mem_append] at hmem
          rw [List.flatMap_cons, List.mem_append]
          rcases hmem with hmem | hmem
          · exact Or.inl hmem
          · exact Or.inr (ih hrest hh hmem)

/-- Clause conversion keeps exactly the handles of the temporary clause. -/
theorem convertTemporary_handles {names : List (Functor' × Int)}
    {tc : TemporaryClause} {c : ValidatedClause}
    (h : convertTemporary names tc = .ok c) :
    ∀ hh ∈ handlesOfClause c, hh ∈ handlesOfTemporary tc := by
  simp only [convertTemporary] at h
  cases hname : findName names (tc.name, tc.headArgs.length) with
  | none => rw [hname] at h; cases h
  | some n =>
      rw [hname] at h
      simp only [exceptBindOkEq] at h
      obtain ⟨body, hbody, h⟩ := exceptBindOk h
      have h' := Except.ok.inj h
      subst h'
      intro hh hmem
      rw [handlesOfClause, List.mem_append] at hmem
      rw [handlesOfTemporary, List.mem_append]
      rcases hmem with hmem | hmem
      · exact Or.inl hmem
      · exact Or.inr (convertBody_handles hbody hh hmem)

/-- Every converted clause comes from some temporary clause. -/
theorem convertTemporaries_mem {names : List (Functor' × Int)}
    {tcs : List TemporaryClause} {cs : List ValidatedClause}
    (h : convertTemporaries names tcs = .ok cs) :
    ∀ c ∈ cs, ∃ tc ∈ tcs, convertTemporary names tc = .ok c := by
  induction tcs generalizing cs with
  | nil =>
      simp only [convertTemporaries] at h
      cases h
      intro c hc
      cases hc
  | cons tc rest ih =>
      simp only [convertTemporaries] at h
      obtain ⟨c₁, hc₁, h⟩ := exceptBindOk h
      obtain ⟨cs', hcs', h⟩ := exceptBindOk h
      cases h
      intro c hc
      rcases List.mem_cons.mp hc with rfl | hc
      · exact ⟨tc, List.mem_cons_self tc rest, hc₁⟩
      · obtain ⟨tc', htc', hconv⟩ := ih hcs' c hc
        exact ⟨tc', List.mem_cons_of_mem tc htc', hconv⟩

/-- Stable insertion introduces no new elements. -/
theorem mem_insertByHeadName {a c : ValidatedClause} {l : List ValidatedClause}
    (h : a ∈ insertByHeadName c l) : a = c ∨ a ∈ l := by
  induction l with
  | nil =>
      rw [insertByHeadName] at h
      exact Or.inl (List.mem_singleton.mp h)
  | cons x xs ih =>
      rw [insertByHeadName] at h
      by_cases hle : x.head.name ≤ c.head.name
      · rw [if_pos hle] at h
        rcases List.mem_cons.mp h with rfl | h
        · exact Or.inr (List.mem_cons_self a xs)
        · rcases ih h with h | h
          · exact Or.inl h
          · exact Or.inr (List.mem_cons_of_mem x h)
      · rw [if_neg hle] at h
        rcases List.mem_cons.mp h with rfl | h
        · exact Or.inl rfl
        · exact Or.inr h

/-- The stable sort is a sublist up to membership. -/
theorem mem_sortByHeadName {a : ValidatedClause} {l : List ValidatedClause}
    (h : a ∈ sortByHeadName l) : a ∈ l := by
  suffices hgen : ∀ acc, a ∈ l.foldl (fun acc c => insertByHeadName c acc) acc →
      a ∈ acc ∨ a ∈ l by
    rcases hgen [] h with h' | h'
    · cases h'
    · exact h'
  clear h
  induction l with
  | nil => intro acc h; exact Or.inl h
  | cons c rest ih =>
      intro acc h
      rcases ih (insertByHeadName c acc) h with h' | h'
      · rcases mem_insertByHeadName h' with rfl | h''
        · exact Or.inr (List.mem_cons_self a rest)
        · exact Or.inl h''
      · exact Or.inr (List.mem_cons_of_mem c h')

/-- **C9.** After lowering any query to the IR, equal string contents share a
single interned handle: if two handles occurring anywhere in the lowered query
(clause heads, body literals, or the goal) dereference to the same pool entry,
they are the same handle. -/
theorem c9_equal_strings_share_handle (sq : SurfaceQuery) (vq : ValidatedQuery)
    (pool : StringPool) (hlow : lowerQuery sq = .ok (vq, pool))
    (h1 h2 : Nat) (m1 : h1 ∈ handlesOfQuery vq) (m2 : h2 ∈ handlesOfQuery vq)
    (heq : pool.strings[h1]? = pool.strings[h2]?) : h1 = h2 := by
  have hinv : QVInv (sq.clauses.foldl lowerClause QueryVisitorState.new) :=
    foldl_lowerClause_inv QVInv_new
  simp only [lowerQuery] at hlow
  rcases hg : lowerValues (sq.clauses.foldl lowerClause QueryVisitorState.new).stringPool
      VarPool.empty sq.goalArgs with ⟨sp, gvp, gargs⟩
  rw [hg] at hlow
  obtain ⟨⟨tg, heg⟩, hng, hbg⟩ := lowerValues_inv hg
  simp only [goalFinish] at hlow
  rcases hpop : ((sq.clauses.foldl lowerClause QueryVisitorState.new).dependencies).popAll
      ((sq.clauses.foldl lowerClause QueryVisitorState.new).dependencies).nodes.length
    with ⟨popped, remaining⟩
  rw [hpop] at hlow
  by_cases hrem : remaining ≠ 0
  · rw [if_pos hrem] at hlow
    cases hlow
  · rw [if_neg hrem] at hlow
    dsimp only at hlow
    obtain ⟨converted, hconv, hlow⟩ := exceptBindOk hlow
    cases hgname : findName (assignNames builtinNameEnv 0 popped)
        (sq.goalName, gargs.length) with
    | none => rw [hgname] at hlow; cases hlow
    | some gname =>
        rw [hgname] at hlow
        simp only [exceptBindOkEq] at hlow
        have hpair := Except.ok.inj hlow
        rw [Prod.mk.injEq] at hpair
        obtain ⟨hvq, hpool⟩ := hpair
        subst hvq
        subst hpool
        -- the final pool is `sp`; handles in the sorted clauses trace back to
        -- the temporary clauses, whose handles are bounded by the pre-goal pool
        have hnodup : sp.strings.Nodup := hng hinv.1
        have hlen :
            (sq.clauses.foldl lowerClause QueryVisitorState.new).stringPool.strings.length
              ≤ sp.strings.length := by rw [heg]; simp
        have hbound : ∀ hh ∈ handlesOfQuery
            ⟨sortByHeadName converted, ⟨gname, gargs⟩, gvp.nextIndex⟩,
            hh < sp.strings.length := by
          intro hh hmem
          rw [handlesOfQuery, List.mem_append] at hmem
          rcases hmem with hmem | hmem
          · rw [List.mem_flatMap] at hmem
            obtain ⟨c, hc, hmemc⟩ := hmem
            obtain ⟨tc, htc, hconvc⟩ :=
              convertTemporaries_mem hconv c (mem_sortByHeadName hc)
            exact Nat.lt_of_lt_of_le
              (hinv.2 tc htc hh (convertTemporary_handles hconvc hh hmemc)) hlen
          · exact hbg hh hmem
        exact List.getElem?_inj (hbound h1 m1) hnodup heq

/-- Witness for C9: lowering `edge("A","B","A"). ?- edge("A","B","A").`
produces the pool `["A", "B"]`, and the occurrences of `"A"` in the head and in
the goal all carry handle 0. -/
theorem c9_witness : (0 : Nat) = 0 :=
  c9_equal_strings_share_handle dupStringsQuery
    ⟨[⟨⟨-4, [.str 0, .str 1, .str 0]⟩, [], 0⟩], ⟨-4, [.str 0, .str 1, .str 0]⟩, 0⟩
    ⟨["A", "B"]⟩ rfl 0 0 (by decide) (by decide) rfl

/-! ### Printer / lexer round trip (C7) -/

/-- Character order is code-point order. -/
theorem char_toNat_le_of_le {a b : Char} (h : a ≤ b) : a.toNat ≤ b.toNat := by
  rw [Char.le_def, UInt32.le_def, BitVec.le_def] at h
  exact h

/-- The code points an identifier character can have. -/
theorem identChar_range {c : Char} (hc : isUnquotedRest c = true) :
    (48 ≤ c.toNat ∧ c.toNat ≤ 57) ∨ (65 ≤ c.toNat ∧ c.toNat ≤ 90) ∨
      (97 ≤ c.toNat ∧ c.toNat ≤ 122) ∨ c = '_' := by
  simp only [isUnquotedRest, isUnquotedStart, Bool.or_eq_true, Bool.and_eq_true,
    decide_eq_true_eq] at hc
  rcases hc with ((⟨hA, hZ⟩ | ⟨ha, hz⟩) | ⟨h0, h9⟩) | hu
  · exact Or.inr (Or.inl ⟨char_toNat_le_of_le hA, char_toNat_le_of_le hZ⟩)
  · exact Or.inr (Or.inr (Or.inl ⟨char_toNat_le_of_le ha, char_toNat_le_of_le hz⟩))
  · exact Or.inl ⟨char_toNat_le_of_le h0, char_toNat_le_of_le h9⟩
  · exact Or.inr (Or.inr (Or.inr hu))

/-- Identifier characters are printable ASCII and are none of the characters
`escape_default` treats specially. -/
theorem identChar_facts {c : Char} (hc : isUnquotedRest c = true) :
    (0x20 ≤ c.toNat ∧ c.toNat ≤ 0x7e) ∧
      c ≠ tabChar ∧ c ≠ crChar ∧ c ≠ lfChar ∧
      c ≠ squote ∧ c ≠ dquote ∧ c ≠ bslash := by
  have hrange := identChar_range hc
  have hspec : (0x20 ≤ c.toNat ∧ c.toNat ≤ 0x7e) ∧
      c.toNat ≠ 9 ∧ c.toNat ≠ 13 ∧ c.toNat ≠ 10 ∧
      c.toNat ≠ 39 ∧ c.toNat ≠ 34 ∧ c.toNat ≠ 92 := by
    rcases hrange with ⟨h1, h2⟩ | ⟨h1, h2⟩ | ⟨h1, h2⟩ | rfl
    · exact ⟨⟨by omega, by omega⟩, by omega, by omega, by omega, by omega,
        by omega, by omega⟩
    · exact ⟨⟨by omega, by omega⟩, by omega, by omega, by omega, by omega,
        by omega, by omega⟩
    · exact ⟨⟨by omega, by omega⟩, by omega, by omega, by omega, by omega,
        by omega, by omega⟩
    · exact ⟨⟨by decide, by decide⟩, by decide, by decide, by decide, by decide,
        by decide, by decide⟩
  refine ⟨hspec.1, ?_, ?_, ?_, ?_, ?_, ?_⟩
  · exact fun he => hspec.2.1 (by subst he; decide)
  · exact fun he => hspec.2.2.1 (by subst he; decide)
  · exact fun he => hspec.2.2.2.1 (by subst he; decide)
  · exact fun he => hspec.2.2.2.2.1 (by subst he; decide)
  · exact fun he => hspec.2.2.2.2.2.1 (by subst he; decide)
  · exact fun he => hspec.2.2.2.2.2.2 (by subst he; decide)

/-- An identifier's first character is not an underscore, a quote, or a
double quote. -/
theorem startChar_facts {c : Char} (hc : isUnquotedStart c = true) :
    c ≠ '_' ∧ c ≠ squote ∧ c ≠ dquote := by
  simp only [isUnquotedStart, Bool.or_eq_true, Bool.and_eq_true,
    decide_eq_true_eq] at hc
  have hrange : (65 ≤ c.toNat ∧ c.toNat ≤ 90) ∨ (97 ≤ c.toNat ∧ c.toNat ≤ 122) := by
    rcases hc with ⟨hA, hZ⟩ | ⟨ha, hz⟩
    · exact Or.inl ⟨char_toNat_le_of_le hA, char_toNat_le_of_le hZ⟩
    · exact Or.inr ⟨char_toNat_le_of_le ha, char_toNat_le_of_le hz⟩
  have hspec : c.toNat ≠ 95 ∧ c.toNat ≠ 39 ∧ c.toNat ≠ 34 := by
    rcases hrange with ⟨h1, h2⟩ | ⟨h1, h2⟩
    · exact ⟨by omega, by omega, by omega⟩
    · exact ⟨by omega, by omega, by omega⟩
  exact ⟨fun he => hspec.1 (by subst he; decide),
    fun he => hspec.2.1 (by subst he; decide),
    fun he => hspec.2.2 (by subst he; decide)⟩

/-- `escape_default` leaves an identifier character unchanged. -/
theorem escapeDefault_identChar {c : Char} (hc : isUnquotedRest c = true) :
    escapeDefaultChar c = [c] := by
  obtain ⟨⟨h1, h2⟩, ht, hr, hn, hq, hd, hb⟩ := identChar_facts hc
  simp [escapeDefaultChar, ht, hr, hn, hq, hd, hb, h1, h2]

/-- Unescaping after `escape_default` restores an identifier character. -/
theorem unescapeBody_defaultEscape (c : Char) (rest : List Char)
    (hc : isUnquotedRest c = true) :
    unescapeBody (escapeDefaultChar c ++ rest) =
      (unescapeBody rest).map (fun l => c :: l) := by
  obtain ⟨⟨h1, h2⟩, ht, hr, hn, hq, hd, hb⟩ := identChar_facts hc
  rw [escapeDefault_identChar hc]
  show unescapeBody (c :: rest) = _
  rw [unescapeBody.eq_def]
  simp [hq, hd, hb]

/-- Unescaping inverts `escape_default` on identifier bodies. -/
theorem unescapeBody_flatMap_default {l : List Char}
    (hl : l.all isUnquotedRest = true) :
    unescapeBody (l.flatMap escapeDefaultChar) = some l := by
  induction l with
  | nil => rfl
  | cons c t ih =>
      rw [List.all_cons, Bool.and_eq_true] at hl
      rw [List.flatMap_cons, unescapeBody_defaultEscape c _ hl.1, ih hl.2]
      rfl

/-- Unescaping after the `{:?}` escaping restores any safe string
character. -/
theorem unescapeBody_debugEscape (c : Char) (rest : List Char)
    (hc : safeStrChar c = true) :
    unescapeBody (escapeDebugChar c ++ rest) =
      (unescapeBody rest).map (fun l => c :: l) := by
  by_cases ht : c = tabChar
  · subst ht; rfl
  · by_cases hr : c = crChar
    · subst hr; rfl
    · by_cases hn : c = lfChar
      · subst hn; rfl
      · by_cases hd : c = dquote
        · subst hd; rfl
        · by_cases hb : c = bslash
          · subst hb; rfl
          · simp only [safeStrChar, Bool.or_eq_true, Bool.and_eq_true,
              decide_eq_true_eq] at hc
            rcases hc with ((hc | hc) | hc) | ⟨⟨h1, h2⟩, hq⟩
            · exact absurd hc ht
            · exact absurd hc hr
            · exact absurd hc hn
            · rw [show escapeDebugChar c = [c] by
                simp [escapeDebugChar, ht, hr, hn, hd, hb, h1, h2]]
              show unescapeBody (c :: rest) = _
              rw [unescapeBody.eq_def]
              simp [hq, hd, hb]

/-- Unescaping inverts the `{:?}` escaping on safe string contents. -/
theorem unescapeBody_flatMap_debug {l : List Char}
    (hl : l.all safeStrChar = true) :
    unescapeBody (l.flatMap escapeDebugChar) = some l := by
  induction l with
  | nil => rfl
  | cons c t ih =>
      rw [List.all_cons, Bool.and_eq_true] at hl
      rw [List.flatMap_cons, unescapeBody_debugEscape c _ hl.1, ih hl.2]
      rfl

/-- Stripping the closing quote recovers the token interior. -/
theorem stripLast_append (q : Char) (l : List Char) :
    stripLast q (l ++ [q]) = some l := by
  induction l with
  | nil => simp [stripLast]
  | cons c rest ih =>
      cases rest with
      | nil => simp [stripLast]
      | cons d ds =>
          show (stripLast q ((d :: ds) ++ [q])).map (fun l => c :: l) =
            some (c :: d :: ds)
          rw [ih]
          rfl

/-- **C7 counterexample.** The claim says the parser accepts every printed
value and returns an equal value.  The printer writes the variable named `a-b`
bare (hyphen is `fmt_var`-printable), but the lexer's identifier token has no
hyphen, so the output does not parse; and the variable named `_` prints as
`_`, which re-parses as a hole, not as that variable. -/
theorem c7_counterexample_print_parse :
    parseValueChars (printValueChars (.var "a-b")) = none ∧
    parseValueChars (printValueChars (.var "_")) = some .hole ∧
    ValueInner.hole ≠ ValueInner.var "_" := by
  refine ⟨by decide, by decide, by decide⟩

/-- Parsing a single-quoted token is stripping the closing quote and
unescaping the interior. -/
theorem parseValueChars_squote (body : List Char) :
    parseValueChars (squote :: (body ++ [squote])) =
      match unescapeBody body with
      | none => none
      | some un => some (.var (String.mk un)) := by
  rw [parseValueChars.eq_def]
  simp [stripLast_append, show squote ≠ dquote by decide]

/-- **C7 (amended).** Printing then re-parsing is the identity on the safe
fragment: values whose variable names begin with an ASCII letter and continue
with ASCII letters, digits or underscores, and whose string literals contain
only tab, CR, LF, or printable ASCII other than the single quote.  Outside
this fragment the printer can emit text the lexer rejects (`a-b`) or reads
back differently (`_`). -/
theorem c7_amended_roundtrip_on_safe (v : ValueInner)
    (hv : safeValue v = true) : valueRoundTrips v := by
  cases v with
  | hole => rfl
  | str s =>
      obtain ⟨data⟩ := s
      have hv' : data.all safeStrChar = true := hv
      show parseValueChars (dquote :: (data.flatMap escapeDebugChar ++ [dquote])) =
        some (.str (String.mk data))
      rw [parseValueChars.eq_def]
      simp [stripLast_append, unescapeBody_flatMap_debug hv']
  | var w =>
      obtain ⟨data⟩ := w
      have hv' : safeVarName data = true := hv
      cases data with
      | nil => cases hv'
      | cons c rest =>
          simp only [safeVarName, Bool.and_eq_true] at hv'
          have hallall : (c :: rest).all isUnquotedRest = true := by
            simp [List.all_cons, isUnquotedRest, hv'.1, hv'.2]
          obtain ⟨hus, hq, hd⟩ := startChar_facts hv'.1
          show parseValueChars (fmtVarChars (c :: rest)) =
            some (.var (String.mk (c :: rest)))
          by_cases hp : (c :: rest).all varPrintableChar
          · rw [show fmtVarChars (c :: rest) = c :: rest by simp [fmtVarChars, hp]]
            rw [parseValueChars.eq_def]
            simp [hus, hq, hd, hv'.1, hv'.2]
          · rw [show fmtVarChars (c :: rest) =
              squote :: ((c :: rest).flatMap escapeDefaultChar ++ [squote]) by
                simp [fmtVarChars, hp]]
            rw [parseValueChars_squote, unescapeBody_flatMap_default hallall]

/-- Witness for C7: the concrete safe values `game`, `osu1` (printed quoted as
`'osu1'`) and the string `"hello,\nworld!"` round-trip. -/
theorem c7_witness :
    (safeValue (.var "game") = true ∧ valueRoundTrips (.var "game")) ∧
    (safeValue (.var "osu1") = true ∧ valueRoundTrips (.var "osu1")) ∧
    (safeValue (.str "hello,\nworld!") = true ∧
      valueRoundTrips (.str "hello,\nworld!")) :=
  ⟨⟨by decide, c7_amended_roundtrip_on_safe _ (by decide)⟩,
   ⟨by decide, c7_amended_roundtrip_on_safe _ (by decide)⟩,
   ⟨by decide, c7_amended_roundtrip_on_safe _ (by decide)⟩⟩

end G1
